import Mathlib

/-!
Verification of the query-execution core of the sqlite-mcp-server repository.

The development shallowly embeds, in Lean, the Python functions of
src/mcp_server_sqlite (jsonb_utils.py, transaction_safety.py, server.py) that
the specification's claims are about.  Python strings are modelled as Lean
strings operated on through their character lists; Python string methods
(strip, upper, startswith, in, replace) are modelled by explicit character
functions below.  The SQLite engine itself is not part of the repository: its
native JSON primitives (the jsonb() and json() SQL functions) are modelled
from the specification, as is noted at each such definition.
-/

namespace SqliteMcp

/-! ## Character-level models of the Python string operations used by the code -/

/-- Model of Python str.startswith restricted to a character list:
the second list is an initial segment of the first. -/
def startsWithChars : List Char → List Char → Bool
  | _, [] => true
  | [], _ :: _ => false
  | c :: cs, p :: ps => c = p && startsWithChars cs ps

/-- Model of the Python substring test (the in operator on str):
some suffix of the string starts with the pattern. -/
def containsSub (pat : List Char) : List Char → Bool
  | [] => startsWithChars [] pat
  | c :: cs => startsWithChars (c :: cs) pat || containsSub pat cs

/-- Whitespace characters removed by Python str.strip (ASCII model). -/
def isPySpace (c : Char) : Bool :=
  c = ' ' || c = '\t' || c = '\n' || c = '\x0d' || c = '\x0b' || c = '\x0c'

/-- Model of Python str.strip: drop leading and trailing whitespace. -/
def pyStrip (cs : List Char) : List Char :=
  ((cs.dropWhile isPySpace).reverse.dropWhile isPySpace).reverse

/-- ASCII model of Python str.upper applied to one character: lowercase
ASCII letters map to their uppercase form, all other characters are kept.
(The statements the code classifies start with ASCII SQL keywords, so the
ASCII fragment of upper is the part the code exercises.) -/
def asciiUpper (c : Char) : Char :=
  if 'a' ≤ c && c ≤ 'z' then Char.ofNat (c.toNat - 32) else c

/-- Trimmed, case-normalized text of a statement: the model of
query.strip().upper() from the Python code. -/
def pyStripUpper (q : String) : List Char :=
  (pyStrip q.data).map asciiUpper

/-- Worker for the model of Python str.replace: the pattern is split into
its head and tail so that each replaced occurrence consumes at least one
character of the subject; the fuel is initialized to the subject's length
and never runs out, since every step consumes at least one character. -/
def replaceSubAux (p : Char) (ps rep : List Char) : Nat → List Char → List Char
  | _, [] => []
  | 0, c :: cs => c :: cs
  | fuel + 1, c :: cs =>
    if startsWithChars (c :: cs) (p :: ps) then
      rep ++ replaceSubAux p ps rep fuel (cs.drop ps.length)
    else
      c :: replaceSubAux p ps rep fuel cs

/-- Model of Python str.replace (all occurrences, left to right).  The code
only ever calls it with a nonempty literal pattern; for an empty pattern the
model returns the subject unchanged. -/
def replaceSub (pat rep cs : List Char) : List Char :=
  match pat with
  | [] => cs
  | p :: ps => replaceSubAux p ps rep cs.length cs

/-! ## JSON values

A JSON value as the code manipulates it.  Numbers are carried as their
source text: both the Python json module and SQLite's JSONB format keep a
number's textual form (JSONB stores the ASCII text of the number as the
element payload), so no floating-point semantics is needed anywhere in the
claims. -/

inductive Json where
  | null : Json
  | bool (b : Bool) : Json
  | num (s : String) : Json
  | str (s : String) : Json
  | arr (xs : List Json) : Json
  | obj (kvs : List (String × Json)) : Json

/-! ## Rendering a JSON value to text -/

/-- Lowercase hexadecimal digit for a value below 16. -/
def hexDigitOf (n : Nat) : Char :=
  if n < 10 then Char.ofNat (48 + n) else Char.ofNat (87 + n)

/-- JSON escaping of one character inside a string literal. -/
def escChar (c : Char) : List Char :=
  if c = '"' then ['\\', '"']
  else if c = '\\' then ['\\', '\\']
  else if c = '\n' then ['\\', 'n']
  else if c = '\x0d' then ['\\', 'r']
  else if c = '\t' then ['\\', 't']
  else if c.toNat < 32 then
    '\\' :: 'u' :: '0' :: '0' :: hexDigitOf (c.toNat / 16) :: [hexDigitOf (c.toNat % 16)]
  else [c]

/-- JSON escaping of a character sequence. -/
def escapeChars : List Char → List Char
  | [] => []
  | c :: cs => escChar c ++ escapeChars cs

mutual

/-- Canonical compact text of a JSON value (the form in which both the
Python json module and SQLite's json() SQL function emit values: no
whitespace, string contents escaped). -/
def renderChars : Json → List Char
  | .null => 'n' :: ['u', 'l', 'l']
  | .bool true => 't' :: ['r', 'u', 'e']
  | .bool false => 'f' :: ['a', 'l', 's', 'e']
  | .num s => s.data
  | .str s => '"' :: (escapeChars s.data ++ ['"'])
  | .arr xs => '[' :: (renderElems xs ++ [']'])
  | .obj kvs => '{' :: (renderKVs kvs ++ ['}'])

/-- Comma-separated rendering of array elements. -/
def renderElems : List Json → List Char
  | [] => []
  | [x] => renderChars x
  | x :: y :: xs => renderChars x ++ ',' :: renderElems (y :: xs)

/-- Comma-separated rendering of object members. -/
def renderKVs : List (String × Json) → List Char
  | [] => []
  | [kv] => ('"' :: (escapeChars kv.1.data ++ ['"', ':'])) ++ renderChars kv.2
  | kv :: kv2 :: kvs =>
    (('"' :: (escapeChars kv.1.data ++ ['"', ':'])) ++ renderChars kv.2)
      ++ ',' :: renderKVs (kv2 :: kvs)

end

/-- Canonical compact text of a JSON value, as a string. -/
def renderJson (v : Json) : String :=
  String.mk (renderChars v)

/-! ## The JSON number token grammar -/

/-- Maximal run of decimal digits at the head of the input. -/
def takeDigits : List Char → List Char × List Char
  | [] => ([], [])
  | c :: cs =>
    if c.isDigit then
      let r := takeDigits cs
      (c :: r.1, r.2)
    else ([], c :: cs)

/-- Integer part of a JSON number after the optional sign: a single zero, or
a nonzero digit followed by any further digits. -/
def intDigits : List Char → Option (List Char × List Char)
  | [] => none
  | c :: cs =>
    if c = '0' then some (['0'], cs)
    else if c.isDigit then
      let r := takeDigits cs
      some (c :: r.1, r.2)
    else none

/-- Optional fraction part of a JSON number: a dot followed by at least one
digit, or nothing consumed. -/
def fracPart : List Char → List Char × List Char
  | [] => ([], [])
  | c :: cs =>
    if c = '.' then
      match cs with
      | [] => ([], c :: cs)
      | d :: ds =>
        if d.isDigit then
          let r := takeDigits (d :: ds)
          (c :: r.1, r.2)
        else ([], c :: cs)
    else ([], c :: cs)

/-- Optional exponent part of a JSON number: e or E, an optional sign, then
at least one digit, or nothing consumed. -/
def expPart : List Char → List Char × List Char
  | [] => ([], [])
  | c :: cs =>
    if c = 'e' || c = 'E' then
      match cs with
      | [] => ([], c :: cs)
      | d :: ds =>
        if d.isDigit then
          let r := takeDigits (d :: ds)
          (c :: r.1, r.2)
        else if d = '+' || d = '-' then
          match ds with
          | [] => ([], c :: cs)
          | e2 :: es =>
            if e2.isDigit then
              let r := takeDigits (e2 :: es)
              (c :: d :: r.1, r.2)
            else ([], c :: cs)
        else ([], c :: cs)
    else ([], c :: cs)

/-- Optional leading minus sign of a JSON number. -/
def numSign : List Char → List Char × List Char
  | [] => ([], [])
  | c :: rest => if c = '-' then (['-'], rest) else ([], c :: rest)

/-- Reads one complete JSON number token from the head of the input,
returning the token's characters and the unconsumed rest. -/
def numToken (cs : List Char) : Option (List Char × List Char) :=
  match intDigits (numSign cs).2 with
  | none => none
  | some (ip, cs2) =>
    some ((numSign cs).1 ++ ip ++ (fracPart cs2).1 ++ (expPart (fracPart cs2).2).1,
      (expPart (fracPart cs2).2).2)

/-- A string is a wellformed JSON number exactly when the number-token
reader consumes it entirely and reproduces it. -/
def numWf (s : String) : Bool :=
  numToken s.data == some (s.data, ([] : List Char))

/-! ## Wellformed JSON values

Wellformedness restricts only the stored number texts; it is exactly the
invariant that values produced by the JSON text parser enjoy. -/

mutual

/-- Wellformedness of a JSON value: every number text in it is a complete
JSON number token. -/
def Wf : Json → Bool
  | .null => true
  | .bool _ => true
  | .num s => numWf s
  | .str _ => true
  | .arr xs => wfList xs
  | .obj kvs => wfKVs kvs

/-- Wellformedness of a list of JSON values. -/
def wfList : List Json → Bool
  | [] => true
  | x :: xs => Wf x && wfList xs

/-- Wellformedness of a list of object members. -/
def wfKVs : List (String × Json) → Bool
  | [] => true
  | kv :: kvs => Wf kv.2 && wfKVs kvs

end

/-! ## The JSON text parser

A strict RFC 8259 recursive-descent parser over character lists, with fuel.
It is the model of the JSON parsing that both the Python json module and the
engine's JSON functions perform on text. -/

/-- JSON inter-token whitespace (space, tab, line feed, carriage return). -/
def isWsChar (c : Char) : Bool :=
  c = ' ' || c = '\t' || c = '\n' || c = '\x0d'

/-- Skip inter-token whitespace. -/
def skipWs (cs : List Char) : List Char :=
  cs.dropWhile isWsChar

/-- Hexadecimal digit test. -/
def isHexDigitB (c : Char) : Bool :=
  c.isDigit || ('a' ≤ c && c ≤ 'f') || ('A' ≤ c && c ≤ 'F')

/-- Value of a hexadecimal digit. -/
def hexVal (c : Char) : Nat :=
  if c.isDigit then c.toNat - 48
  else if 'a' ≤ c && c ≤ 'f' then c.toNat - 87
  else if 'A' ≤ c && c ≤ 'F' then c.toNat - 55
  else 0

/-- Single-character JSON escapes. -/
def escDecode (e : Char) : Option Char :=
  if e = '"' then some '"'
  else if e = '\\' then some '\\'
  else if e = '/' then some '/'
  else if e = 'b' then some '\x08'
  else if e = 'f' then some '\x0c'
  else if e = 'n' then some '\n'
  else if e = 'r' then some '\x0d'
  else if e = 't' then some '\t'
  else none

/-- Character denoted by a u-escape code point.  Lean characters are Unicode
scalar values, so a lone surrogate code point is represented by the
replacement character; this preserves both parse success and the JSON
validity of any rendering of the result, which is all the claims depend
on. -/
def uCharOf (n : Nat) : Char :=
  if 0xD800 ≤ n ∧ n < 0xE000 then Char.ofNat 0xFFFD else Char.ofNat n

/-- Parses the body of a JSON string literal after its opening quote,
returning the denoted characters and the input after the closing quote. -/
def parseStrChars : List Char → Option (List Char × List Char)
  | [] => none
  | c :: cs =>
    if c = '"' then some ([], cs)
    else if c = '\\' then
      match cs with
      | [] => none
      | e :: cs2 =>
        if e = 'u' then
          match cs2 with
          | d1 :: d2 :: d3 :: d4 :: cs3 =>
            if isHexDigitB d1 && isHexDigitB d2 && isHexDigitB d3 && isHexDigitB d4 then
              match parseStrChars cs3 with
              | some (s, r) =>
                some (uCharOf (((hexVal d1 * 16 + hexVal d2) * 16 + hexVal d3) * 16
                  + hexVal d4) :: s, r)
              | none => none
            else none
          | _ => none
        else
          match escDecode e with
          | some ec =>
            match parseStrChars cs2 with
            | some (s, r) => some (ec :: s, r)
            | none => none
          | none => none
    else if 32 ≤ c.toNat then
      match parseStrChars cs with
      | some (s, r) => some (c :: s, r)
      | none => none
    else none

mutual

/-- Parses one JSON value at the head of the input (no leading whitespace). -/
def parseVal : Nat → List Char → Option (Json × List Char)
  | 0, _ => none
  | fuel + 1, cs =>
    match cs with
    | [] => none
    | c :: cs1 =>
      if c = '"' then
        match parseStrChars cs1 with
        | some (s, r) => some (Json.str (String.mk s), r)
        | none => none
      else if c = '[' then parseArrBody fuel (skipWs cs1)
      else if c = '{' then parseObjBody fuel (skipWs cs1)
      else if c = 't' then
        if startsWithChars cs1 ['r', 'u', 'e'] then some (Json.bool true, cs1.drop 3)
        else none
      else if c = 'f' then
        if startsWithChars cs1 ['a', 'l', 's', 'e'] then some (Json.bool false, cs1.drop 4)
        else none
      else if c = 'n' then
        if startsWithChars cs1 ['u', 'l', 'l'] then some (Json.null, cs1.drop 3)
        else none
      else
        match numToken (c :: cs1) with
        | some (tok, rest) => some (Json.num (String.mk tok), rest)
        | none => none

/-- Parses the inside of an array after the opening bracket and any leading
whitespace. -/
def parseArrBody : Nat → List Char → Option (Json × List Char)
  | 0, _ => none
  | fuel + 1, cs =>
    match cs with
    | ']' :: rest => some (Json.arr [], rest)
    | _ =>
      match parseElems fuel cs with
      | some (xs, rest) => some (Json.arr xs, rest)
      | none => none

/-- Parses one or more comma-separated array elements up to and including
the closing bracket. -/
def parseElems : Nat → List Char → Option (List Json × List Char)
  | 0, _ => none
  | fuel + 1, cs =>
    match parseVal fuel cs with
    | none => none
    | some (v, r) =>
      match skipWs r with
      | ',' :: r2 =>
        match parseElems fuel (skipWs r2) with
        | some (vs, r3) => some (v :: vs, r3)
        | none => none
      | ']' :: r2 => some ([v], r2)
      | _ => none

/-- Parses the inside of an object after the opening brace and any leading
whitespace. -/
def parseObjBody : Nat → List Char → Option (Json × List Char)
  | 0, _ => none
  | fuel + 1, cs =>
    match cs with
    | '}' :: rest => some (Json.obj [], rest)
    | _ =>
      match parseKVs fuel cs with
      | some (kvs, rest) => some (Json.obj kvs, rest)
      | none => none

/-- Parses one or more comma-separated object members up to and including
the closing brace. -/
def parseKVs : Nat → List Char → Option (List (String × Json) × List Char)
  | 0, _ => none
  | fuel + 1, cs =>
    match cs with
    | '"' :: cs1 =>
      match parseStrChars cs1 with
      | some (k, r) =>
        match skipWs r with
        | ':' :: r2 =>
          match parseVal fuel (skipWs r2) with
          | some (v, r3) =>
            match skipWs r3 with
            | ',' :: r4 =>
              match parseKVs fuel (skipWs r4) with
              | some (kvs, r5) => some ((String.mk k, v) :: kvs, r5)
              | none => none
            | '}' :: r4 => some ([(String.mk k, v)], r4)
            | _ => none
          | none => none
        | _ => none
      | none => none
    | _ => none

end

/-- Parses a complete JSON text: one value surrounded by optional
whitespace, nothing else.  The fuel is generous for the input length, and
the round-trip theorems prove it sufficient for every rendered value. -/
def parseJson (s : String) : Option Json :=
  match parseVal (4 * s.data.length + 4) (skipWs s.data) with
  | some (v, rest) => if skipWs rest = [] then some v else none
  | none => none

/-! ## Round-trip of rendering and parsing -/

mutual

/-- Fuel needed by the parser to read back a rendered value. -/
def weight : Json → Nat
  | .null => 1
  | .bool _ => 1
  | .num _ => 1
  | .str _ => 1
  | .arr xs => 2 + weightList xs
  | .obj kvs => 2 + weightKVs kvs

/-- Fuel needed to read back a rendered element list. -/
def weightList : List Json → Nat
  | [] => 0
  | x :: xs => weight x + 2 + weightList xs

/-- Fuel needed to read back a rendered member list. -/
def weightKVs : List (String × Json) → Nat
  | [] => 0
  | kv :: kvs => weight kv.2 + 2 + weightKVs kvs

end

/-- The rest of the input after a rendered value is either empty or starts
with a character that ends every token (a comma or a closing bracket). -/
def sepHead : List Char → Bool
  | [] => true
  | c :: _ => c = ',' || c = ']' || c = '}'

theorem string_mk_data (s : String) : String.mk s.data = s := rfl

theorem startsWithChars_append_self (p rest : List Char) :
    startsWithChars (p ++ rest) p = true := by
  induction p with
  | nil => simp [startsWithChars]
  | cons c cs ih => simp [startsWithChars, ih]

theorem skipWs_not_ws {c : Char} (h : isWsChar c = false) (cs : List Char) :
    skipWs (c :: cs) = c :: cs := by
  simp [skipWs, List.dropWhile, h]

theorem sepHead_spec {rest : List Char} (h : sepHead rest = true) :
    rest = [] ∨ ∃ c r, rest = c :: r ∧ (c = ',' ∨ c = ']' ∨ c = '}') := by
  cases rest with
  | nil => exact Or.inl rfl
  | cons c r =>
    refine Or.inr ⟨c, r, rfl, ?_⟩
    simpa [sepHead, or_assoc] using h

theorem takeDigits_append {rest : List Char} (h : sepHead rest = true)
    (cs : List Char) :
    takeDigits (cs ++ rest) = ((takeDigits cs).1, (takeDigits cs).2 ++ rest) := by
  induction cs with
  | nil =>
    simp only [List.nil_append]
    rcases sepHead_spec h with rfl | ⟨c, r, rfl, hc⟩
    · rfl
    · have hd : c.isDigit = false := by rcases hc with rfl | rfl | rfl <;> decide
      simp [takeDigits, hd]
  | cons c cs ih =>
    by_cases hd : c.isDigit
    · simp [takeDigits, hd, ih]
    · simp [takeDigits, hd]

theorem intDigits_append {cs rest ip r : List Char} (h : sepHead rest = true)
    (he : intDigits cs = some (ip, r)) :
    intDigits (cs ++ rest) = some (ip, r ++ rest) := by
  cases cs with
  | nil => simp [intDigits] at he
  | cons c cs =>
    by_cases h0 : c = '0'
    · subst h0
      simp only [intDigits, reduceIte, Option.some.injEq, Prod.mk.injEq] at he
      obtain ⟨rfl, rfl⟩ := he
      simp [intDigits]
    · by_cases hd : c.isDigit
      · simp only [intDigits, if_neg h0, if_pos hd, Option.some.injEq, Prod.mk.injEq] at he
        simp only [List.cons_append, intDigits, if_neg h0, if_pos hd,
          takeDigits_append h, Option.some.injEq, Prod.mk.injEq]
        exact ⟨he.1, by rw [← he.2]⟩
      · simp [intDigits, h0, hd] at he

theorem fracPart_append {rest : List Char} (h : sepHead rest = true)
    (cs : List Char) :
    fracPart (cs ++ rest) = ((fracPart cs).1, (fracPart cs).2 ++ rest) := by
  cases cs with
  | nil =>
    simp only [List.nil_append]
    rcases sepHead_spec h with rfl | ⟨c, r, rfl, hc⟩
    · rfl
    · have hdot : ¬ (c = '.') := by rcases hc with rfl | rfl | rfl <;> decide
      simp [fracPart, hdot]
  | cons c cs =>
    by_cases hdot : c = '.'
    · subst hdot
      cases cs with
      | nil =>
        simp only [List.singleton_append, fracPart, if_pos rfl]
        rcases sepHead_spec h with rfl | ⟨d, r, rfl, hd⟩
        · rfl
        · have hdd : d.isDigit = false := by rcases hd with rfl | rfl | rfl <;> decide
          simp [fracPart, hdd]
      | cons d ds =>
        by_cases hd : d.isDigit
        · simp only [List.cons_append, fracPart, if_pos rfl, hd, if_pos hd]
          have := takeDigits_append h (d :: ds)
          simp only [List.cons_append] at this
          simp [fracPart, hd, this]
        · simp [fracPart, hd]
    · simp [fracPart, hdot]

theorem expPart_append {rest : List Char} (h : sepHead rest = true)
    (cs : List Char) :
    expPart (cs ++ rest) = ((expPart cs).1, (expPart cs).2 ++ rest) := by
  cases cs with
  | nil =>
    simp only [List.nil_append]
    rcases sepHead_spec h with rfl | ⟨c, r, rfl, hc⟩
    · rfl
    · have he : (c = 'e' || c = 'E') = false := by rcases hc with rfl | rfl | rfl <;> decide
      simp [expPart, he]
  | cons c cs =>
    by_cases hce : (c = 'e' || c = 'E') = true
    · cases cs with
      | nil =>
        rcases sepHead_spec h with rfl | ⟨d, r, rfl, hd⟩
        · simp
        · have hdd : d.isDigit = false := by rcases hd with rfl | rfl | rfl <;> decide
          have hds : (d = '+' || d = '-') = false := by
            rcases hd with rfl | rfl | rfl <;> decide
          simp [expPart, hce, hdd, hds]
      | cons d ds =>
        by_cases hd : d.isDigit
        · have := takeDigits_append h (d :: ds)
          simp only [List.cons_append] at this
          simp [expPart, hce, hd, this]
        · by_cases hds : (d = '+' || d = '-') = true
          · cases ds with
            | nil =>
              rcases sepHead_spec h with rfl | ⟨e2, r, rfl, he2⟩
              · simp
              · have he2d : e2.isDigit = false := by rcases he2 with rfl | rfl | rfl <;> decide
                simp [expPart, hce, hd, hds, he2d]
            | cons e2 es =>
              by_cases he2 : e2.isDigit
              · have := takeDigits_append h (e2 :: es)
                simp only [List.cons_append] at this
                simp [expPart, hce, hd, hds, he2, this]
              · simp [expPart, hce, hd, hds, he2]
          · simp [expPart, hce, hd, hds]
    · simp [expPart, hce]

theorem numSign_minus (cs : List Char) : numSign ('-' :: cs) = (['-'], cs) := by
  simp [numSign]

theorem numSign_other {c : Char} (hm : ¬ c = '-') (cs : List Char) :
    numSign (c :: cs) = ([], c :: cs) := by
  simp [numSign, hm]

theorem numToken_append {cs tok rest : List Char} (h : sepHead rest = true)
    (he : numToken cs = some (tok, [])) :
    numToken (cs ++ rest) = some (tok, rest) := by
  cases cs with
  | nil => simp [numToken, numSign, intDigits] at he
  | cons c cs =>
    by_cases hm : c = '-'
    · subst hm
      rw [List.cons_append]
      unfold numToken at he ⊢
      rw [numSign_minus] at he
      rw [numSign_minus]
      cases hi : intDigits cs with
      | none => rw [hi] at he; simp at he
      | some p =>
        obtain ⟨ip, r⟩ := p
        rw [hi] at he
        rw [intDigits_append h hi]
        simp only [Option.some.injEq, Prod.mk.injEq] at he ⊢
        rw [fracPart_append h, expPart_append h]
        exact ⟨by simpa using he.1, by simpa using he.2⟩
    · rw [List.cons_append]
      unfold numToken at he ⊢
      rw [numSign_other hm] at he
      rw [numSign_other hm]
      cases hi : intDigits (c :: cs) with
      | none => rw [hi] at he; simp at he
      | some p =>
        obtain ⟨ip, r⟩ := p
        rw [hi] at he
        have hi2 := intDigits_append h hi
        rw [List.cons_append] at hi2
        rw [hi2]
        simp only [Option.some.injEq, Prod.mk.injEq] at he ⊢
        rw [fracPart_append h, expPart_append h]
        exact ⟨by simpa using he.1, by simpa using he.2⟩

theorem hexVal_hexDigitChar {n : Nat} (h : n < 16) : hexVal (hexDigitOf n) = n := by
  interval_cases n <;> decide

theorem isHexDigitB_hexDigitChar {n : Nat} (h : n < 16) :
    isHexDigitB (hexDigitOf n) = true := by
  interval_cases n <;> decide

theorem parseStrChars_escape (cs rest : List Char) :
    parseStrChars (escapeChars cs ++ '"' :: rest) = some (cs, rest) := by
  induction cs with
  | nil =>
    show parseStrChars ('"' :: rest) = some ([], rest)
    rw [parseStrChars.eq_def]
    simp
  | cons c cs ih =>
    show parseStrChars ((escChar c ++ escapeChars cs) ++ '"' :: rest) = _
    rw [List.append_assoc]
    by_cases h1 : c = '"'
    · subst h1
      show parseStrChars ('\\' :: '"' :: _) = _
      rw [parseStrChars.eq_def]; simp [escDecode, ih]
    · by_cases h2 : c = '\\'
      · subst h2
        show parseStrChars ('\\' :: '\\' :: _) = _
        rw [parseStrChars.eq_def]; simp [escDecode, ih]
      · by_cases h3 : c = '\n'
        · subst h3
          show parseStrChars ('\\' :: 'n' :: _) = _
          rw [parseStrChars.eq_def]; simp [escDecode, ih]
        · by_cases h4 : c = '\x0d'
          · subst h4
            show parseStrChars ('\\' :: 'r' :: _) = _
            rw [parseStrChars.eq_def]; simp [escDecode, ih]
          · by_cases h5 : c = '\t'
            · subst h5
              show parseStrChars ('\\' :: 't' :: _) = _
              rw [parseStrChars.eq_def]; simp [escDecode, ih]
            · by_cases h6 : c.toNat < 32
              · have e1 : hexVal (hexDigitOf (c.toNat / 16)) = c.toNat / 16 :=
                  hexVal_hexDigitChar (by omega)
                have e2 : hexVal (hexDigitOf (c.toNat % 16)) = c.toNat % 16 :=
                  hexVal_hexDigitChar (by omega)
                have b1 : isHexDigitB (hexDigitOf (c.toNat / 16)) = true :=
                  isHexDigitB_hexDigitChar (by omega)
                have b2 : isHexDigitB (hexDigitOf (c.toNat % 16)) = true :=
                  isHexDigitB_hexDigitChar (by omega)
                have hu : uCharOf ((((hexVal '0' * 16 + hexVal '0') * 16
                    + hexVal (hexDigitOf (c.toNat / 16))) * 16
                    + hexVal (hexDigitOf (c.toNat % 16)))) = c := by
                  rw [e1, e2]
                  have hv : (((hexVal '0' * 16 + hexVal '0') * 16 + c.toNat / 16) * 16
                      + c.toNat % 16) = c.toNat := by
                    have h0 : hexVal '0' = 0 := by decide
                    rw [h0]; omega
                  rw [hv]
                  unfold uCharOf
                  rw [if_neg (by omega)]
                  exact Char.ofNat_toNat c
                have hesc : escChar c = ['\\', 'u', '0', '0', hexDigitOf (c.toNat / 16),
                    hexDigitOf (c.toNat % 16)] := by
                  simp [escChar, h1, h2, h3, h4, h5, h6]
                rw [hesc]
                show parseStrChars ('\\' :: 'u' :: '0' :: '0' :: hexDigitOf (c.toNat / 16)
                    :: hexDigitOf (c.toNat % 16) :: (escapeChars cs ++ '"' :: rest)) = _
                rw [parseStrChars.eq_def]
                simp [b1, b2, hu, ih, (by decide : isHexDigitB '0' = true)]
              · have hesc : escChar c = [c] := by
                  simp [escChar, h1, h2, h3, h4, h5, h6]
                rw [hesc]
                show parseStrChars (c :: (escapeChars cs ++ '"' :: rest)) = _
                rw [parseStrChars.eq_def]
                simp [h1, h2, ih]
                omega

theorem numToken_head {cs tok r : List Char} (he : numToken cs = some (tok, r)) :
    ∃ c cs', cs = c :: cs' ∧ (c = '-' ∨ c.isDigit = true) := by
  cases cs with
  | nil => simp [numToken, numSign, intDigits] at he
  | cons c cs =>
    refine ⟨c, cs, rfl, ?_⟩
    by_cases hm : c = '-'
    · exact Or.inl hm
    · right
      unfold numToken at he
      rw [numSign_other hm] at he
      by_cases hd : c.isDigit
      · exact hd
      · have h0 : ¬ c = '0' := by
          intro hc; subst hc; simp at hd
        simp [intDigits, h0, hd] at he

theorem isDigit_ne {c d : Char} (hd : c.isDigit = true) (hdd : d.isDigit = false) :
    ¬ c = d := by
  intro h
  subst h
  rw [hd] at hdd
  exact absurd hdd (by simp)

theorem sepHead_comma (r : List Char) : sepHead (',' :: r) = true := by simp [sepHead]

theorem sepHead_rbrack (r : List Char) : sepHead (']' :: r) = true := by simp [sepHead]

theorem sepHead_rbrace (r : List Char) : sepHead ('}' :: r) = true := by simp [sepHead]

theorem weight_pos (v : Json) : 1 ≤ weight v := by
  cases v <;> simp only [weight] <;> omega

theorem renderChars_head {v : Json} (hwf : Wf v = true) :
    ∃ c cs', renderChars v = c :: cs' ∧ isWsChar c = false ∧ ¬ c = ']' ∧ ¬ c = '}' := by
  cases v with
  | null =>
    refine ⟨'n', _, rfl, ?_, ?_, ?_⟩ <;> decide
  | bool b =>
    cases b with
    | true => refine ⟨'t', _, rfl, ?_, ?_, ?_⟩ <;> decide
    | false => refine ⟨'f', _, rfl, ?_, ?_, ?_⟩ <;> decide
  | num s =>
    have hn : numToken s.data = some (s.data, []) := by
      simpa [Wf, numWf] using hwf
    obtain ⟨c, cs', hcs, hc⟩ := numToken_head hn
    refine ⟨c, cs', by simp [renderChars, hcs], ?_, ?_, ?_⟩
    · rcases hc with rfl | hd
      · decide
      · have h1 : ¬ c = ' ' := isDigit_ne hd (by decide)
        have h2 : ¬ c = '\t' := isDigit_ne hd (by decide)
        have h3 : ¬ c = '\n' := isDigit_ne hd (by decide)
        have h4 : ¬ c = '\x0d' := isDigit_ne hd (by decide)
        simp [isWsChar, h1, h2, h3, h4]
    · rcases hc with rfl | hd
      · decide
      · exact isDigit_ne hd (by decide)
    · rcases hc with rfl | hd
      · decide
      · exact isDigit_ne hd (by decide)
  | str s => refine ⟨'"', _, rfl, ?_, ?_, ?_⟩ <;> decide
  | arr xs => refine ⟨'[', _, rfl, ?_, ?_, ?_⟩ <;> decide
  | obj kvs => refine ⟨'{', _, rfl, ?_, ?_, ?_⟩ <;> decide

theorem renderElems_head {x : Json} (hwf : Wf x = true) (xs : List Json) :
    ∃ c tail, renderElems (x :: xs) = c :: tail ∧ isWsChar c = false ∧
      ¬ c = ']' ∧ ¬ c = '}' := by
  obtain ⟨c, cs', h1, h2, h3, h4⟩ := renderChars_head hwf
  cases xs with
  | nil => exact ⟨c, cs', by simp [renderElems, h1], h2, h3, h4⟩
  | cons y ys =>
    exact ⟨c, cs' ++ ',' :: renderElems (y :: ys), by simp [renderElems, h1], h2, h3, h4⟩

theorem renderKVs_head (kv : String × Json) (kvs : List (String × Json)) :
    ∃ tail, renderKVs (kv :: kvs) = '"' :: tail := by
  cases kvs with
  | nil =>
    exact ⟨escapeChars kv.1.data ++ '"' :: ':' :: renderChars kv.2, by simp [renderKVs]⟩
  | cons kv2 kvs' =>
    exact ⟨escapeChars kv.1.data ++ '"' :: ':'
      :: (renderChars kv.2 ++ ',' :: renderKVs (kv2 :: kvs')), by simp [renderKVs]⟩

theorem parse_render_all : ∀ n : Nat,
    (∀ v : Json, weight v ≤ n → Wf v = true → ∀ fuel, weight v ≤ fuel →
      ∀ rest, sepHead rest = true →
      parseVal fuel (renderChars v ++ rest) = some (v, rest)) ∧
    (∀ xs : List Json, weightList xs ≤ n → xs ≠ [] → wfList xs = true →
      ∀ fuel, weightList xs ≤ fuel → ∀ rest,
      parseElems fuel (renderElems xs ++ ']' :: rest) = some (xs, rest)) ∧
    (∀ kvs : List (String × Json), weightKVs kvs ≤ n → kvs ≠ [] → wfKVs kvs = true →
      ∀ fuel, weightKVs kvs ≤ fuel → ∀ rest,
      parseKVs fuel (renderKVs kvs ++ '}' :: rest) = some (kvs, rest)) := by
  intro n
  induction n using Nat.strong_induction_on with
  | _ n ih =>
  refine ⟨?_, ?_, ?_⟩
  · intro v hn hwf fuel hfuel rest hsep
    obtain ⟨f, rfl⟩ : ∃ f, fuel = f + 1 := ⟨fuel - 1, by have := weight_pos v; omega⟩
    cases v with
    | null =>
      rw [parseVal.eq_def]
      simp [renderChars, startsWithChars]
    | bool b =>
      cases b <;> (rw [parseVal.eq_def]; simp [renderChars, startsWithChars])
    | num s =>
      have hn2 : numToken s.data = some (s.data, []) := by simpa [Wf, numWf] using hwf
      obtain ⟨c, cs', hcs, hc⟩ := numToken_head hn2
      have hna : numToken (s.data ++ rest) = some (s.data, rest) := numToken_append hsep hn2
      have hneAll : ¬ c = '"' ∧ ¬ c = '[' ∧ ¬ c = '{' ∧ ¬ c = 't' ∧ ¬ c = 'f' ∧ ¬ c = 'n' := by
        rcases hc with rfl | hd
        · exact ⟨by decide, by decide, by decide, by decide, by decide, by decide⟩
        · exact ⟨isDigit_ne hd (by decide), isDigit_ne hd (by decide), isDigit_ne hd (by decide),
            isDigit_ne hd (by decide), isDigit_ne hd (by decide), isDigit_ne hd (by decide)⟩
      obtain ⟨hne1, hne2, hne3, hne4, hne5, hne6⟩ := hneAll
      rw [parseVal.eq_def]
      simp only [renderChars, hcs, List.cons_append]
      simp only [hne1, hne2, hne3, hne4, hne5, hne6, if_false, if_neg]
      rw [← List.cons_append, ← hcs, hna]
    | str s =>
      have h := parseStrChars_escape s.data rest
      rw [parseVal.eq_def]
      simp only [renderChars, List.cons_append, List.append_assoc, List.singleton_append]
      simp [h, string_mk_data]
    | arr xs =>
      have hw2 : weight (Json.arr xs) = 2 + weightList xs := rfl
      obtain ⟨f', rfl⟩ : ∃ f', f = f' + 1 := ⟨f - 1, by omega⟩
      cases xs with
      | nil =>
        rw [parseVal.eq_def]
        simp only [renderChars, renderElems, List.nil_append, List.cons_append]
        simp [skipWs_not_ws (by decide : isWsChar ']' = false)]
        rw [parseArrBody.eq_def]
        simp
      | cons x xs' =>
        have hwx : Wf x = true ∧ wfList xs' = true := by
          have : wfList (x :: xs') = true := hwf
          simpa [wfList, Bool.and_eq_true] using this
        have hnn : 1 ≤ n := by omega
        obtain ⟨ih1, ih2, ih3⟩ := ih (n - 1) (by omega)
        have hwl : weightList (x :: xs') = weight x + 2 + weightList xs' := rfl
        have happ := ih2 (x :: xs') (by omega) (by simp) hwf f' (by omega) rest
        obtain ⟨hc, tail, hrt, hwsc, hcne1, hcne2⟩ := renderElems_head hwx.1 xs'
        have hskip : skipWs (renderElems (x :: xs') ++ ']' :: rest)
            = renderElems (x :: xs') ++ ']' :: rest := by
          rw [hrt, List.cons_append, skipWs_not_ws hwsc]
        rw [parseVal.eq_def]
        simp only [renderChars, List.cons_append, List.append_assoc, List.singleton_append]
        simp [hskip]
        rw [parseArrBody.eq_def]
        rw [hrt, List.cons_append] at happ ⊢
        simp [hcne1, happ]
    | obj kvs =>
      have hw2 : weight (Json.obj kvs) = 2 + weightKVs kvs := rfl
      obtain ⟨f', rfl⟩ : ∃ f', f = f' + 1 := ⟨f - 1, by omega⟩
      cases kvs with
      | nil =>
        rw [parseVal.eq_def]
        simp only [renderChars, renderKVs, List.nil_append, List.cons_append]
        simp [skipWs_not_ws (by decide : isWsChar '}' = false)]
        rw [parseObjBody.eq_def]
        simp
      | cons kv kvs' =>
        have hnn : 1 ≤ n := by omega
        obtain ⟨ih1, ih2, ih3⟩ := ih (n - 1) (by omega)
        have hwl : weightKVs (kv :: kvs') = weight kv.2 + 2 + weightKVs kvs' := rfl
        have happ := ih3 (kv :: kvs') (by omega) (by simp) hwf f' (by omega) rest
        obtain ⟨t5, hrt5⟩ := renderKVs_head kv kvs'
        have hskip : skipWs (renderKVs (kv :: kvs') ++ '}' :: rest)
            = renderKVs (kv :: kvs') ++ '}' :: rest := by
          rw [hrt5, List.cons_append, skipWs_not_ws (by decide)]
        rw [parseVal.eq_def]
        simp only [renderChars, List.cons_append, List.append_assoc, List.singleton_append]
        simp [hskip]
        rw [parseObjBody.eq_def]
        rw [hrt5, List.cons_append] at happ ⊢
        simp [happ]
  · intro xs hn hxne hwf fuel hfuel rest
    cases xs with
    | nil => exact absurd rfl hxne
    | cons x xs' =>
      have hwl : weightList (x :: xs') = weight x + 2 + weightList xs' := rfl
      obtain ⟨g, rfl⟩ : ∃ g, fuel = g + 1 := ⟨fuel - 1, by omega⟩
      have hwx : Wf x = true ∧ wfList xs' = true := by
        simpa [wfList, Bool.and_eq_true] using hwf
      have hnn : 1 ≤ n := by omega
      obtain ⟨ih1, ih2, ih3⟩ := ih (n - 1) (by omega)
      cases xs' with
      | nil =>
        have h1 := ih1 x (by omega) hwx.1 g (by omega) (']' :: rest) (sepHead_rbrack rest)
        rw [parseElems.eq_def]
        simp only [renderElems]
        simp [h1, skipWs_not_ws (by decide : isWsChar ']' = false)]
      | cons y ys =>
        have hwl2 : weightList (y :: ys) = weight y + 2 + weightList ys := rfl
        have hr : renderElems (x :: y :: ys) ++ ']' :: rest
            = renderChars x ++ (',' :: (renderElems (y :: ys) ++ ']' :: rest)) := by
          simp [renderElems]
        have h1 := ih1 x (by omega) hwx.1 g (by omega)
          (',' :: (renderElems (y :: ys) ++ ']' :: rest)) (sepHead_comma _)
        have hwy : Wf y = true ∧ wfList ys = true := by
          simpa [wfList, Bool.and_eq_true] using hwx.2
        obtain ⟨hc2, tail2, hrt2, hws2, _, _⟩ := renderElems_head hwy.1 ys
        have hskip2 : skipWs (renderElems (y :: ys) ++ ']' :: rest)
            = renderElems (y :: ys) ++ ']' :: rest := by
          rw [hrt2, List.cons_append, skipWs_not_ws hws2]
        have h2 := ih2 (y :: ys) (by omega) (by simp) hwx.2 g (by omega) rest
        rw [parseElems.eq_def, hr]
        simp [h1, skipWs_not_ws (by decide : isWsChar ',' = false), hskip2, h2]
  · intro kvs hn hxne hwf fuel hfuel rest
    cases kvs with
    | nil => exact absurd rfl hxne
    | cons kv kvs' =>
      obtain ⟨k, v⟩ := kv
      have hwl : weightKVs ((k, v) :: kvs') = weight v + 2 + weightKVs kvs' := rfl
      obtain ⟨g, rfl⟩ : ∃ g, fuel = g + 1 := ⟨fuel - 1, by omega⟩
      have hwv : Wf v = true ∧ wfKVs kvs' = true := by
        simpa [wfKVs, Bool.and_eq_true] using hwf
      have hnn : 1 ≤ n := by omega
      obtain ⟨ih1, ih2, ih3⟩ := ih (n - 1) (by omega)
      obtain ⟨hc3, t3, hrt3, hws3, _, _⟩ := renderChars_head hwv.1
      cases kvs' with
      | nil =>
        have hr : renderKVs [(k, v)] ++ '}' :: rest
            = '"' :: (escapeChars k.data ++ ('"' :: (':' :: (renderChars v ++ '}' :: rest)))) := by
          simp [renderKVs]
        have hstr := parseStrChars_escape k.data (':' :: (renderChars v ++ '}' :: rest))
        have h1 := ih1 v (by omega) hwv.1 g (by omega) ('}' :: rest) (sepHead_rbrace rest)
        have hskip3 : skipWs (renderChars v ++ '}' :: rest) = renderChars v ++ '}' :: rest := by
          rw [hrt3, List.cons_append, skipWs_not_ws hws3]
        rw [hr, parseKVs.eq_def]
        simp [hstr, skipWs_not_ws (by decide : isWsChar ':' = false), hskip3, h1,
          skipWs_not_ws (by decide : isWsChar '}' = false), string_mk_data]
      | cons kv2 kvs2 =>
        have hwl2 : weightKVs (kv2 :: kvs2) = weight kv2.2 + 2 + weightKVs kvs2 := rfl
        have hr : renderKVs ((k, v) :: kv2 :: kvs2) ++ '}' :: rest
            = '"' :: (escapeChars k.data ++ ('"' :: (':' :: (renderChars v
              ++ (',' :: (renderKVs (kv2 :: kvs2) ++ '}' :: rest)))))) := by
          simp [renderKVs]
        have hstr := parseStrChars_escape k.data
          (':' :: (renderChars v ++ (',' :: (renderKVs (kv2 :: kvs2) ++ '}' :: rest))))
        have h1 := ih1 v (by omega) hwv.1 g (by omega)
          (',' :: (renderKVs (kv2 :: kvs2) ++ '}' :: rest)) (sepHead_comma _)
        have hskip3 : skipWs (renderChars v ++ (',' :: (renderKVs (kv2 :: kvs2) ++ '}' :: rest)))
            = renderChars v ++ (',' :: (renderKVs (kv2 :: kvs2) ++ '}' :: rest)) := by
          rw [hrt3, List.cons_append, skipWs_not_ws hws3]
        obtain ⟨t4, hrt4⟩ := renderKVs_head kv2 kvs2
        have hskip4 : skipWs (renderKVs (kv2 :: kvs2) ++ '}' :: rest)
            = renderKVs (kv2 :: kvs2) ++ '}' :: rest := by
          rw [hrt4, List.cons_append, skipWs_not_ws (by decide)]
        have h2 := ih3 (kv2 :: kvs2) (by omega) (by simp) hwv.2 g (by omega) rest
        rw [hr, parseKVs.eq_def]
        simp [hstr, skipWs_not_ws (by decide : isWsChar ':' = false), hskip3, h1,
          skipWs_not_ws (by decide : isWsChar ',' = false), hskip4, h2, string_mk_data]

/-! ## Values produced by the parser are wellformed -/

/-- Head of a list is not a digit (or the list is empty). -/
def headNotDigit : List Char → Bool
  | [] => true
  | c :: _ => !c.isDigit

theorem takeDigits_all (cs : List Char) :
    ((takeDigits cs).1).all Char.isDigit = true := by
  induction cs with
  | nil => rfl
  | cons c cs ih =>
    by_cases hd : c.isDigit
    · simp [takeDigits, hd, ih]
    · simp [takeDigits, hd]

theorem takeDigits_self {ds : List Char} (hall : ds.all Char.isDigit = true)
    {rest : List Char} (hnd : headNotDigit rest = true) :
    takeDigits (ds ++ rest) = (ds, rest) := by
  induction ds with
  | nil =>
    cases rest with
    | nil => rfl
    | cons c r =>
      have : c.isDigit = false := by simpa [headNotDigit] using hnd
      simp [takeDigits, this]
  | cons d ds ih =>
    simp only [List.all_cons, Bool.and_eq_true] at hall
    simp [takeDigits, hall.1, ih hall.2]

theorem intDigits_shape {cs ip r : List Char} (h : intDigits cs = some (ip, r)) :
    ip = ['0'] ∨ ∃ c ds, ip = c :: ds ∧ ¬ c = '0' ∧ c.isDigit = true
      ∧ ds.all Char.isDigit = true := by
  cases cs with
  | nil => simp [intDigits] at h
  | cons c cs =>
    by_cases h0 : c = '0'
    · subst h0
      simp only [intDigits, reduceIte, Option.some.injEq, Prod.mk.injEq] at h
      exact Or.inl h.1.symm
    · by_cases hd : c.isDigit
      · simp only [intDigits, if_neg h0, if_pos hd, Option.some.injEq, Prod.mk.injEq] at h
        exact Or.inr ⟨c, (takeDigits cs).1, h.1.symm, h0, hd, takeDigits_all cs⟩
      · simp [intDigits, h0, hd] at h

theorem fracPart_shape (cs : List Char) :
    (fracPart cs).1 = [] ∨ ∃ d ds, (fracPart cs).1 = '.' :: d :: ds
      ∧ d.isDigit = true ∧ ds.all Char.isDigit = true := by
  cases cs with
  | nil => exact Or.inl rfl
  | cons c cs =>
    by_cases hdot : c = '.'
    · subst hdot
      cases cs with
      | nil => exact Or.inl rfl
      | cons d ds =>
        by_cases hd : d.isDigit
        · right
          refine ⟨d, (takeDigits ds).1, ?_, hd, ?_⟩
          · simp [fracPart, hd, takeDigits]
          · have := takeDigits_all (d :: ds)
            simpa [takeDigits, hd, List.all_cons] using this
        · simp [fracPart, hd]
    · simp [fracPart, hdot]

theorem expPart_shape (cs : List Char) :
    (expPart cs).1 = [] ∨
    (∃ ec d ds, (expPart cs).1 = ec :: d :: ds ∧ (ec = 'e' ∨ ec = 'E')
      ∧ d.isDigit = true ∧ ds.all Char.isDigit = true) ∨
    (∃ ec sg d ds, (expPart cs).1 = ec :: sg :: d :: ds ∧ (ec = 'e' ∨ ec = 'E')
      ∧ (sg = '+' ∨ sg = '-') ∧ d.isDigit = true ∧ ds.all Char.isDigit = true) := by
  cases cs with
  | nil => exact Or.inl rfl
  | cons c cs =>
    by_cases hce : (c = 'e' || c = 'E') = true
    · have hc : c = 'e' ∨ c = 'E' := by simpa using hce
      cases cs with
      | nil => exact Or.inl (by simp [expPart, hce])
      | cons d ds =>
        by_cases hd : d.isDigit
        · right; left
          refine ⟨c, d, (takeDigits ds).1, ?_, hc, hd, ?_⟩
          · simp [expPart, hce, hd, takeDigits]
          · have := takeDigits_all (d :: ds)
            simpa [takeDigits, hd, List.all_cons] using this
        · by_cases hds : (d = '+' || d = '-') = true
          · have hsg : d = '+' ∨ d = '-' := by simpa using hds
            cases ds with
            | nil => exact Or.inl (by simp [expPart, hce, hd, hds])
            | cons e2 es =>
              by_cases he2 : e2.isDigit
              · right; right
                refine ⟨c, d, e2, (takeDigits es).1, ?_, hc, hsg, he2, ?_⟩
                · simp [expPart, hce, hd, hds, he2, takeDigits]
                · have := takeDigits_all (e2 :: es)
                  simpa [takeDigits, he2, List.all_cons] using this
              · simp [expPart, hce, hd, hds, he2]
          · simp [expPart, hce, hd, hds]
    · simp [expPart, hce]

theorem numToken_self {cs tok rest : List Char} (h : numToken cs = some (tok, rest)) :
    numToken tok = some (tok, []) := by
  unfold numToken at h
  cases hi : intDigits (numSign cs).2 with
  | none => rw [hi] at h; simp at h
  | some p =>
    obtain ⟨ip, cs2⟩ := p
    rw [hi] at h
    simp only [Option.some.injEq, Prod.mk.injEq] at h
    obtain ⟨htok, _⟩ := h
    have hipshape := intDigits_shape hi
    have hfshape := fracPart_shape cs2
    have heshape := expPart_shape (fracPart cs2).2
    set ftail := (fracPart cs2).1 with hftd
    set etail := (expPart (fracPart cs2).2).1 with hetd
    have hnde : headNotDigit etail = true := by
      rcases heshape with he0 | ⟨ec, d, ds, he1, hec, _, _⟩ | ⟨ec, sg, d, ds, he1, hec, _, _⟩
      · rw [he0]; rfl
      · rw [he1]; rcases hec with rfl | rfl <;> rfl
      · rw [he1]; rcases hec with rfl | rfl <;> rfl
    have hndfe : headNotDigit (ftail ++ etail) = true := by
      rcases hfshape with hf0 | ⟨d, ds, hf1, _, _⟩
      · rw [hf0, List.nil_append]
        exact hnde
      · rw [hf1]; rfl
    have hfrac : fracPart (ftail ++ etail) = (ftail, etail) := by
      rcases hfshape with hf0 | ⟨d, ds, hf1, hd, hall⟩
      · rw [hf0, List.nil_append]
        rcases heshape with he0 | ⟨ec, d, ds, he1, hec, _, _⟩ | ⟨ec, sg, d, ds, he1, hec, _, _⟩
        · rw [he0]; rfl
        · rw [he1]
          rcases hec with rfl | rfl <;> simp [fracPart]
        · rw [he1]
          rcases hec with rfl | rfl <;> simp [fracPart]
      · rw [hf1]
        have hts : takeDigits ((d :: ds) ++ etail) = (d :: ds, etail) :=
          takeDigits_self (by simp [List.all_cons, hd, hall]) hnde
        simp only [List.cons_append] at hts
        simp [fracPart, hd, hts]
    have hexp : expPart etail = (etail, []) := by
      rcases heshape with he0 | ⟨ec, d, ds, he1, hec, hd, hall⟩
        | ⟨ec, sg, d, ds, he1, hec, hsg, hd, hall⟩
      · rw [he0]; rfl
      · rw [he1]
        have hts : takeDigits (d :: ds) = (d :: ds, []) := by
          have := @takeDigits_self (d :: ds)
            (by simp [List.all_cons, hd, hall]) [] rfl
          simpa using this
        have hcee : (ec = 'e' || ec = 'E') = true := by
          rcases hec with rfl | rfl <;> rfl
        simp [expPart, hcee, hd, hts]
      · rw [he1]
        have hts : takeDigits (d :: ds) = (d :: ds, []) := by
          have := @takeDigits_self (d :: ds)
            (by simp [List.all_cons, hd, hall]) [] rfl
          simpa using this
        have hcee : (ec = 'e' || ec = 'E') = true := by
          rcases hec with rfl | rfl <;> rfl
        have hsgd : sg.isDigit = false := by rcases hsg with rfl | rfl <;> rfl
        have hsgs : (sg = '+' || sg = '-') = true := by
          rcases hsg with rfl | rfl <;> rfl
        simp [expPart, hcee, hsgd, hsgs, hd, hts]
    have hint : intDigits (ip ++ (ftail ++ etail)) = some (ip, ftail ++ etail) := by
      rcases hipshape with rfl | ⟨c, ds, rfl, h0, hd, hall⟩
      · simp [intDigits]
      · have hts := takeDigits_self hall hndfe
        simp [intDigits, h0, hd, hts]
    have hiphead : ∃ c0 ip', ip = c0 :: ip' ∧ ¬ c0 = '-' := by
      rcases hipshape with rfl | ⟨c, ds, rfl, _, hd, _⟩
      · exact ⟨'0', [], rfl, by decide⟩
      · exact ⟨c, ds, rfl, isDigit_ne hd (by decide)⟩
    cases cs with
    | nil => simp [numSign, intDigits] at hi
    | cons c cs' =>
      by_cases hm : c = '-'
      · subst hm
        rw [numSign_minus] at htok
        subst htok
        unfold numToken
        rw [show (['-'] ++ ip ++ ftail ++ etail : List Char)
            = '-' :: (ip ++ (ftail ++ etail)) by simp]
        rw [numSign_minus, hint]
        dsimp only
        rw [hfrac, hexp]
        simp
      · rw [numSign_other hm] at htok
        rw [List.nil_append] at htok
        subst htok
        obtain ⟨c0, ip', hip, hc0⟩ := hiphead
        unfold numToken
        rw [show (ip ++ ftail ++ etail : List Char) = ip ++ (ftail ++ etail) by simp]
        rw [hip, List.cons_append, numSign_other hc0, ← List.cons_append, ← hip,
          hint]
        dsimp only
        rw [hfrac, hexp]
        simp

theorem parse_wf_all : ∀ fuel : Nat,
    (∀ cs v r, parseVal fuel cs = some (v, r) → Wf v = true) ∧
    (∀ cs xs r, parseElems fuel cs = some (xs, r) → wfList xs = true) ∧
    (∀ cs kvs r, parseKVs fuel cs = some (kvs, r) → wfKVs kvs = true) ∧
    (∀ cs v r, parseArrBody fuel cs = some (v, r) → Wf v = true) ∧
    (∀ cs v r, parseObjBody fuel cs = some (v, r) → Wf v = true) := by
  intro fuel
  induction fuel with
  | zero =>
    refine ⟨?_, ?_, ?_, ?_, ?_⟩ <;> intro cs a r h <;>
      simp [parseVal, parseElems, parseKVs, parseArrBody, parseObjBody] at h
  | succ f ihAll =>
    obtain ⟨ih1, ih2, ih3, ih4, ih5⟩ := ihAll
    refine ⟨?_, ?_, ?_, ?_, ?_⟩
    · intro cs v r h
      rw [parseVal.eq_def] at h
      cases cs with
      | nil => simp at h
      | cons c cs1 =>
        dsimp only at h
        by_cases h1 : c = '"'
        · rw [if_pos h1] at h
          cases hp : parseStrChars cs1 with
          | none => rw [hp] at h; simp at h
          | some p =>
            obtain ⟨s, r2⟩ := p
            rw [hp] at h
            simp only [Option.some.injEq, Prod.mk.injEq] at h
            rw [← h.1]
            rfl
        · rw [if_neg h1] at h
          by_cases h2 : c = '['
          · rw [if_pos h2] at h
            exact ih4 _ _ _ h
          · rw [if_neg h2] at h
            by_cases h3 : c = '{'
            · rw [if_pos h3] at h
              exact ih5 _ _ _ h
            · rw [if_neg h3] at h
              by_cases h4 : c = 't'
              · rw [if_pos h4] at h
                by_cases hs : startsWithChars cs1 ['r', 'u', 'e'] = true
                · rw [if_pos hs] at h
                  simp only [Option.some.injEq, Prod.mk.injEq] at h
                  rw [← h.1]; rfl
                · rw [if_neg hs] at h; simp at h
              · rw [if_neg h4] at h
                by_cases h5 : c = 'f'
                · rw [if_pos h5] at h
                  by_cases hs : startsWithChars cs1 ['a', 'l', 's', 'e'] = true
                  · rw [if_pos hs] at h
                    simp only [Option.some.injEq, Prod.mk.injEq] at h
                    rw [← h.1]; rfl
                  · rw [if_neg hs] at h; simp at h
                · rw [if_neg h5] at h
                  by_cases h6 : c = 'n'
                  · rw [if_pos h6] at h
                    by_cases hs : startsWithChars cs1 ['u', 'l', 'l'] = true
                    · rw [if_pos hs] at h
                      simp only [Option.some.injEq, Prod.mk.injEq] at h
                      rw [← h.1]; rfl
                    · rw [if_neg hs] at h; simp at h
                  · rw [if_neg h6] at h
                    cases hm : numToken (c :: cs1) with
                    | none => rw [hm] at h; simp at h
                    | some p =>
                      obtain ⟨tok, rest2⟩ := p
                      rw [hm] at h
                      simp only [Option.some.injEq, Prod.mk.injEq] at h
                      rw [← h.1]
                      have := numToken_self hm
                      simp [Wf, numWf, this]
    · intro cs xs r h
      rw [parseElems.eq_def] at h
      dsimp only at h
      cases hp : parseVal f cs with
      | none => rw [hp] at h; simp at h
      | some p =>
        obtain ⟨v, r1⟩ := p
        rw [hp] at h
        dsimp only at h
        cases hw : skipWs r1 with
        | nil => rw [hw] at h; simp at h
        | cons c2 r2 =>
          rw [hw] at h
          by_cases hc : c2 = ','
          · subst hc
            simp at h
            cases he : parseElems f (skipWs r2) with
            | none => rw [he] at h; simp at h
            | some q =>
              obtain ⟨vs, r3⟩ := q
              rw [he] at h
              simp at h
              rw [← h.1]
              simp [wfList, ih1 _ _ _ hp, ih2 _ _ _ he]
          · by_cases hcr : c2 = ']'
            · subst hcr
              simp at h
              rw [← h.1]
              simp [wfList, ih1 _ _ _ hp]
            · simp [hc, hcr] at h
    · intro cs kvs r h
      rw [parseKVs.eq_def] at h
      dsimp only at h
      cases cs with
      | nil => simp at h
      | cons c cs1 =>
        by_cases h1 : c = '"'
        · subst h1
          simp at h
          cases hp : parseStrChars cs1 with
          | none => rw [hp] at h; simp at h
          | some p =>
            obtain ⟨k, r1⟩ := p
            rw [hp] at h
            dsimp only at h
            cases hw : skipWs r1 with
            | nil => rw [hw] at h; simp at h
            | cons c2 r2 =>
              rw [hw] at h
              by_cases hc : c2 = ':'
              · subst hc
                simp at h
                cases hv : parseVal f (skipWs r2) with
                | none => rw [hv] at h; simp at h
                | some q =>
                  obtain ⟨v, r3⟩ := q
                  rw [hv] at h
                  dsimp only at h
                  cases hw2 : skipWs r3 with
                  | nil => rw [hw2] at h; simp at h
                  | cons c3 r4 =>
                    rw [hw2] at h
                    by_cases hc3 : c3 = ','
                    · subst hc3
                      simp at h
                      cases hk : parseKVs f (skipWs r4) with
                      | none => rw [hk] at h; simp at h
                      | some q2 =>
                        obtain ⟨kvs2, r5⟩ := q2
                        rw [hk] at h
                        simp at h
                        rw [← h.1]
                        simp [wfKVs, ih1 _ _ _ hv, ih3 _ _ _ hk]
                    · by_cases hc4 : c3 = '}'
                      · subst hc4
                        simp at h
                        rw [← h.1]
                        simp [wfKVs, ih1 _ _ _ hv]
                      · simp [hc3, hc4] at h
              · simp [hc] at h
        · simp [h1] at h
    · intro cs v r h
      rw [parseArrBody.eq_def] at h
      dsimp only at h
      cases cs with
      | nil =>
        cases he : parseElems f [] with
        | none => rw [he] at h; simp at h
        | some q =>
          obtain ⟨vs, r2⟩ := q
          rw [he] at h
          simp only [Option.some.injEq, Prod.mk.injEq] at h
          rw [← h.1]
          have := ih2 _ _ _ he
          simpa [Wf] using this
      | cons c cs1 =>
        by_cases hc : c = ']'
        · subst hc
          simp at h
          rw [← h.1]
          rfl
        · have hred : parseArrBody (f + 1) (c :: cs1)
              = match parseElems f (c :: cs1) with
                | some (xs, rest) => some (Json.arr xs, rest)
                | none => none := by
            rw [parseArrBody.eq_def]
            simp [hc]
          rw [parseArrBody.eq_def] at hred
          dsimp only at hred
          rw [hred] at h
          cases he : parseElems f (c :: cs1) with
          | none => rw [he] at h; simp at h
          | some q =>
            obtain ⟨vs, r2⟩ := q
            rw [he] at h
            simp only [Option.some.injEq, Prod.mk.injEq] at h
            rw [← h.1]
            have := ih2 _ _ _ he
            simpa [Wf] using this
    · intro cs v r h
      rw [parseObjBody.eq_def] at h
      dsimp only at h
      cases cs with
      | nil =>
        cases he : parseKVs f [] with
        | none => rw [he] at h; simp at h
        | some q =>
          obtain ⟨kvs, r2⟩ := q
          rw [he] at h
          simp only [Option.some.injEq, Prod.mk.injEq] at h
          rw [← h.1]
          have := ih3 _ _ _ he
          simpa [Wf] using this
      | cons c cs1 =>
        by_cases hc : c = '}'
        · subst hc
          simp at h
          rw [← h.1]
          rfl
        · have hred : parseObjBody (f + 1) (c :: cs1)
              = match parseKVs f (c :: cs1) with
                | some (kvs, rest) => some (Json.obj kvs, rest)
                | none => none := by
            rw [parseObjBody.eq_def]
            simp [hc]
          rw [parseObjBody.eq_def] at hred
          dsimp only at hred
          rw [hred] at h
          cases he : parseKVs f (c :: cs1) with
          | none => rw [he] at h; simp at h
          | some q =>
            obtain ⟨kvs, r2⟩ := q
            rw [he] at h
            simp only [Option.some.injEq, Prod.mk.injEq] at h
            rw [← h.1]
            have := ih3 _ _ _ he
            simpa [Wf] using this

theorem weight_le_render : ∀ n : Nat,
    (∀ v : Json, weight v ≤ n → Wf v = true → weight v + 2 ≤ 4 * (renderChars v).length) ∧
    (∀ xs : List Json, weightList xs ≤ n → wfList xs = true →
      weightList xs ≤ 4 * (renderElems xs).length + 4) ∧
    (∀ kvs : List (String × Json), weightKVs kvs ≤ n → wfKVs kvs = true →
      weightKVs kvs ≤ 4 * (renderKVs kvs).length + 4) := by
  intro n
  induction n using Nat.strong_induction_on with
  | _ n ih =>
  refine ⟨?_, ?_, ?_⟩
  · intro v hn hwf
    cases v with
    | null => simp [weight, renderChars]
    | bool b => cases b <;> simp [weight, renderChars]
    | num s =>
      have hn2 : numToken s.data = some (s.data, []) := by simpa [Wf, numWf] using hwf
      obtain ⟨c, cs', hcs, _⟩ := numToken_head hn2
      simp [weight, renderChars, hcs]
      omega
    | str s => simp [weight, renderChars]; omega
    | arr xs =>
      have hw2 : weight (Json.arr xs) = 2 + weightList xs := rfl
      have hnn : 1 ≤ n := by omega
      obtain ⟨ih1, ih2, ih3⟩ := ih (n - 1) (by omega)
      have hxs := ih2 xs (by omega) hwf
      have hlen : (renderChars (Json.arr xs)).length = 2 + (renderElems xs).length := by
        simp [renderChars]
        omega
      omega
    | obj kvs =>
      have hw2 : weight (Json.obj kvs) = 2 + weightKVs kvs := rfl
      have hnn : 1 ≤ n := by omega
      obtain ⟨ih1, ih2, ih3⟩ := ih (n - 1) (by omega)
      have hkvs := ih3 kvs (by omega) hwf
      have hlen : (renderChars (Json.obj kvs)).length = 2 + (renderKVs kvs).length := by
        simp [renderChars]
        omega
      omega
  · intro xs hn hwf
    cases xs with
    | nil => simp [weightList, renderElems]
    | cons x xs' =>
      have hw2 : weightList (x :: xs') = weight x + 2 + weightList xs' := rfl
      have hwx : Wf x = true ∧ wfList xs' = true := by
        simpa [wfList, Bool.and_eq_true] using hwf
      have hnn : 1 ≤ n := by omega
      obtain ⟨ih1, ih2, ih3⟩ := ih (n - 1) (by omega)
      have hx := ih1 x (by omega) hwx.1
      cases xs' with
      | nil =>
        have hlen : renderElems [x] = renderChars x := rfl
        have hw0 : weightList ([] : List Json) = 0 := rfl
        rw [hw2, hlen, hw0]
        omega
      | cons y ys =>
        have hys := ih2 (y :: ys) (by omega) hwx.2
        have hlen : (renderElems (x :: y :: ys)).length
            = (renderChars x).length + 1 + (renderElems (y :: ys)).length := by
          simp [renderElems]
          omega
        omega
  · intro kvs hn hwf
    cases kvs with
    | nil => simp [weightKVs, renderKVs]
    | cons kv kvs' =>
      have hw2 : weightKVs (kv :: kvs') = weight kv.2 + 2 + weightKVs kvs' := rfl
      have hwv : Wf kv.2 = true ∧ wfKVs kvs' = true := by
        simpa [wfKVs, Bool.and_eq_true] using hwf
      have hnn : 1 ≤ n := by omega
      obtain ⟨ih1, ih2, ih3⟩ := ih (n - 1) (by omega)
      have hv := ih1 kv.2 (by omega) hwv.1
      cases kvs' with
      | nil =>
        have hlen : (renderKVs [kv]).length
            = 3 + (escapeChars kv.1.data).length + (renderChars kv.2).length := by
          simp [renderKVs]
          omega
        have hw0 : weightKVs ([] : List (String × Json)) = 0 := rfl
        rw [hw2, hlen, hw0]
        omega
      | cons kv2 kvs2 =>
        have hkvs := ih3 (kv2 :: kvs2) (by omega) hwv.2
        have hlen : (renderKVs (kv :: kv2 :: kvs2)).length
            = 3 + (escapeChars kv.1.data).length + (renderChars kv.2).length
              + 1 + (renderKVs (kv2 :: kvs2)).length := by
          simp [renderKVs]
          omega
        omega

theorem parseJson_render {v : Json} (hwf : Wf v = true) :
    parseJson (renderJson v) = some v := by
  unfold parseJson renderJson
  have hdata : (String.mk (renderChars v)).data = renderChars v := rfl
  rw [hdata]
  obtain ⟨c, cs', hrt, hws, _, _⟩ := renderChars_head hwf
  have hskip : skipWs (renderChars v) = renderChars v := by
    rw [hrt]; exact skipWs_not_ws hws _
  rw [hskip]
  have hwb := (weight_le_render (weight v)).1 v le_rfl hwf
  have h := (parse_render_all (weight v)).1 v le_rfl hwf
    (4 * (renderChars v).length + 4) (by omega) [] (by decide)
  rw [List.append_nil] at h
  rw [h]
  simp [skipWs]

theorem parseJson_wf {s : String} {v : Json} (h : parseJson s = some v) : Wf v = true := by
  unfold parseJson at h
  cases hp : parseVal (4 * s.data.length + 4) (skipWs s.data) with
  | none => rw [hp] at h; simp at h
  | some p =>
    obtain ⟨v2, rest⟩ := p
    rw [hp] at h
    dsimp only at h
    by_cases hr : skipWs rest = []
    · rw [if_pos hr] at h
      simp only [Option.some.injEq] at h
      rw [← h]
      exact (parse_wf_all _).1 _ _ _ hp
    · rw [if_neg hr] at h; simp at h

/-! ## UTF-8 bytes

Character sequences cross the byte boundary in two places: the payloads of
the engine's binary JSON format, and the bytes path of Python's json.loads.
Both use UTF-8; Python decodes with the surrogatepass error handler, which
additionally admits encoded surrogate code points.  Lean characters are
Unicode scalar values, so a decoded surrogate is represented by the
replacement character (as in uCharOf, this preserves everything the claims
depend on). -/

/-- UTF-8 encoding of one character (1 to 4 bytes). -/
def utf8EncodeChar (c : Char) : List Nat :=
  let n := c.toNat
  if n < 0x80 then [n]
  else if n < 0x800 then [0xC0 + n / 64, 0x80 + n % 64]
  else if n < 0x10000 then [0xE0 + n / 4096, 0x80 + n / 64 % 64, 0x80 + n % 64]
  else [0xF0 + n / 262144, 0x80 + n / 4096 % 64, 0x80 + n / 64 % 64, 0x80 + n % 64]

/-- UTF-8 encoding of a character sequence. -/
def utf8Encode : List Char → List Nat
  | [] => []
  | c :: cs => utf8EncodeChar c ++ utf8Encode cs

/-- Continuation-byte test. -/
def isCont (b : Nat) : Bool :=
  0x80 ≤ b && b < 0xC0

/-- Character for a decoded code point under surrogatepass: surrogates
become the replacement character, everything else is the scalar itself. -/
def surChar (n : Nat) : Char :=
  if 0xD800 ≤ n ∧ n < 0xE000 then Char.ofNat 0xFFFD else Char.ofNat n

/-- Decodes one UTF-8 sequence from the head of the input (surrogatepass:
three-byte encodings of surrogates are accepted).  Overlong encodings and
out-of-range code points are rejected. -/
def utf8DecodeChar : List Nat → Option (Char × List Nat)
  | [] => none
  | b :: bs =>
    if b < 0x80 then some (Char.ofNat b, bs)
    else if b < 0xC0 then none
    else if b < 0xE0 then
      match bs with
      | b1 :: r =>
        if isCont b1 then
          let n := (b - 0xC0) * 64 + (b1 - 0x80)
          if 0x80 ≤ n then some (Char.ofNat n, r) else none
        else none
      | _ => none
    else if b < 0xF0 then
      match bs with
      | b1 :: b2 :: r =>
        if isCont b1 && isCont b2 then
          let n := (b - 0xE0) * 4096 + (b1 - 0x80) * 64 + (b2 - 0x80)
          if 0x800 ≤ n then some (surChar n, r) else none
        else none
      | _ => none
    else if b < 0xF8 then
      match bs with
      | b1 :: b2 :: b3 :: r =>
        if isCont b1 && isCont b2 && isCont b3 then
          let n := (b - 0xF0) * 262144 + (b1 - 0x80) * 4096 + (b2 - 0x80) * 64 + (b3 - 0x80)
          if 0x10000 ≤ n ∧ n < 0x110000 then some (Char.ofNat n, r) else none
        else none
      | _ => none
    else none

/-- Decodes a whole UTF-8 byte sequence, with fuel. -/
def utf8DecodeGo : Nat → List Nat → Option (List Char)
  | _, [] => some []
  | 0, _ :: _ => none
  | fuel + 1, b :: bs =>
    match utf8DecodeChar (b :: bs) with
    | some (c, r) =>
      match utf8DecodeGo fuel r with
      | some cs => some (c :: cs)
      | none => none
    | none => none

/-- Decodes a whole UTF-8 byte sequence (fails on any invalid sequence). -/
def utf8Decode (bs : List Nat) : Option (List Char) :=
  utf8DecodeGo bs.length bs

theorem char_ofNat_toNat_valid {n : Nat} (h : n.isValidChar) :
    (Char.ofNat n).toNat = n := by
  unfold Char.ofNat
  rw [dif_pos h]
  rfl

theorem utf8DecodeChar_encode (c : Char) (rest : List Nat) :
    utf8DecodeChar (utf8EncodeChar c ++ rest) = some (c, rest) := by
  have hv : c.toNat < 55296 ∨ (57343 < c.toNat ∧ c.toNat < 1114112) := c.valid
  by_cases h1 : c.toNat < 0x80
  · have he : utf8EncodeChar c = [c.toNat] := by simp [utf8EncodeChar, h1]
    rw [he]
    show utf8DecodeChar (c.toNat :: rest) = some (c, rest)
    rw [utf8DecodeChar.eq_def]
    simp only [h1, if_pos, Char.ofNat_toNat]
  · by_cases h2 : c.toNat < 0x800
    · have he : utf8EncodeChar c = [0xC0 + c.toNat / 64, 0x80 + c.toNat % 64] := by
        simp [utf8EncodeChar, h1, h2]
      rw [he]
      show utf8DecodeChar ((0xC0 + c.toNat / 64) :: (0x80 + c.toNat % 64) :: rest)
        = some (c, rest)
      rw [utf8DecodeChar.eq_def]
      have hb1 : ¬ (0xC0 + c.toNat / 64 < 0x80) := by omega
      have hb2 : ¬ (0xC0 + c.toNat / 64 < 0xC0) := by omega
      have hb3 : 0xC0 + c.toNat / 64 < 0xE0 := by omega
      have hc1 : isCont (0x80 + c.toNat % 64) = true := by
        simp [isCont]
        omega
      have hn : (0xC0 + c.toNat / 64 - 0xC0) * 64 + (0x80 + c.toNat % 64 - 0x80)
          = c.toNat := by omega
      simp only [hb1, hb2, hb3, hc1, hn, if_neg, if_pos, if_false, if_true, reduceIte]
      rw [if_pos (by omega)]
      rw [Char.ofNat_toNat]
    · by_cases h3 : c.toNat < 0x10000
      · have he : utf8EncodeChar c = [0xE0 + c.toNat / 4096, 0x80 + c.toNat / 64 % 64,
            0x80 + c.toNat % 64] := by
          simp [utf8EncodeChar, h1, h2, h3]
        rw [he]
        show utf8DecodeChar ((0xE0 + c.toNat / 4096) :: (0x80 + c.toNat / 64 % 64)
          :: (0x80 + c.toNat % 64) :: rest) = some (c, rest)
        rw [utf8DecodeChar.eq_def]
        have hb1 : ¬ (0xE0 + c.toNat / 4096 < 0x80) := by omega
        have hb2 : ¬ (0xE0 + c.toNat / 4096 < 0xC0) := by omega
        have hb3 : ¬ (0xE0 + c.toNat / 4096 < 0xE0) := by omega
        have hb4 : 0xE0 + c.toNat / 4096 < 0xF0 := by omega
        have hc1 : (isCont (0x80 + c.toNat / 64 % 64) && isCont (0x80 + c.toNat % 64))
            = true := by
          simp [isCont]
          omega
        have hn : (0xE0 + c.toNat / 4096 - 0xE0) * 4096
            + (0x80 + c.toNat / 64 % 64 - 0x80) * 64
            + (0x80 + c.toNat % 64 - 0x80) = c.toNat := by omega
        simp only [hb1, hb2, hb3, hb4, hc1, hn, if_neg, if_pos, if_false, if_true, reduceIte]
        rw [if_pos (by omega)]
        have hs : surChar c.toNat = Char.ofNat c.toNat := by
          unfold surChar
          rw [if_neg (by omega)]
        rw [hs, Char.ofNat_toNat]
      · have he : utf8EncodeChar c = [0xF0 + c.toNat / 262144, 0x80 + c.toNat / 4096 % 64,
            0x80 + c.toNat / 64 % 64, 0x80 + c.toNat % 64] := by
          simp [utf8EncodeChar, h1, h2, h3]
        rw [he]
        show utf8DecodeChar ((0xF0 + c.toNat / 262144) :: (0x80 + c.toNat / 4096 % 64)
          :: (0x80 + c.toNat / 64 % 64) :: (0x80 + c.toNat % 64) :: rest) = some (c, rest)
        rw [utf8DecodeChar.eq_def]
        have hhi : c.toNat < 1114112 := by omega
        have hb1 : ¬ (0xF0 + c.toNat / 262144 < 0x80) := by omega
        have hb2 : ¬ (0xF0 + c.toNat / 262144 < 0xC0) := by omega
        have hb3 : ¬ (0xF0 + c.toNat / 262144 < 0xE0) := by omega
        have hb4 : ¬ (0xF0 + c.toNat / 262144 < 0xF0) := by omega
        have hb5 : 0xF0 + c.toNat / 262144 < 0xF8 := by omega
        have hc1 : (isCont (0x80 + c.toNat / 4096 % 64) && (isCont (0x80 + c.toNat / 64 % 64)
            && isCont (0x80 + c.toNat % 64))) = true := by
          simp [isCont]
          omega
        have hn : (0xF0 + c.toNat / 262144 - 0xF0) * 262144
            + (0x80 + c.toNat / 4096 % 64 - 0x80) * 4096
            + (0x80 + c.toNat / 64 % 64 - 0x80) * 64 + (0x80 + c.toNat % 64 - 0x80)
            = c.toNat := by omega
        simp only [hb1, hb2, hb3, hb4, hb5, Bool.and_assoc, hc1, hn, if_neg, if_pos,
          if_false, if_true, reduceIte]
        rw [if_pos (by omega)]
        rw [Char.ofNat_toNat]

theorem utf8EncodeChar_length_pos (c : Char) : 1 ≤ (utf8EncodeChar c).length := by
  unfold utf8EncodeChar
  by_cases h1 : c.toNat < 0x80
  · simp [h1]
  · by_cases h2 : c.toNat < 0x800
    · simp [h1, h2]
    · by_cases h3 : c.toNat < 0x10000
      · simp [h1, h2, h3]
      · simp [h1, h2, h3]

theorem utf8DecodeGo_encode (cs : List Char) :
    ∀ fuel, cs.length ≤ fuel → utf8DecodeGo fuel (utf8Encode cs) = some cs := by
  induction cs with
  | nil =>
    intro fuel _
    cases fuel <;> rfl
  | cons c cs ih =>
    intro fuel hf
    obtain ⟨f, rfl⟩ : ∃ f, fuel = f + 1 := ⟨fuel - 1, by simp at hf; omega⟩
    have henc : utf8Encode (c :: cs) = utf8EncodeChar c ++ utf8Encode cs := rfl
    rw [henc]
    obtain ⟨b, bs0, hb⟩ : ∃ b bs0, utf8EncodeChar c ++ utf8Encode cs = b :: bs0 := by
      cases he : utf8EncodeChar c with
      | nil =>
        have := utf8EncodeChar_length_pos c
        rw [he] at this
        simp at this
      | cons b bs1 => exact ⟨b, bs1 ++ utf8Encode cs, by simp⟩
    have hrec := ih f (by simp at hf; omega)
    rw [hb, utf8DecodeGo.eq_def]
    dsimp only
    rw [← hb, utf8DecodeChar_encode c (utf8Encode cs)]
    dsimp only
    rw [hrec]

theorem utf8Encode_length (cs : List Char) : cs.length ≤ (utf8Encode cs).length := by
  induction cs with
  | nil => simp [utf8Encode]
  | cons c cs ih =>
    have h := utf8EncodeChar_length_pos c
    simp only [utf8Encode, List.length_append, List.length_cons]
    omega

theorem utf8Decode_encode (cs : List Char) : utf8Decode (utf8Encode cs) = some cs := by
  unfold utf8Decode
  exact utf8DecodeGo_encode cs _ (utf8Encode_length cs)

/-! ## The engine's binary JSON format

Modelled from the spec: the SQLite engine itself (whose native jsonb() and
json() SQL functions the codec in jsonb_utils.py delegates to) is not part
of this repository.  The spec describes the engine side only as a reversible
conversion between JSON text and a validated compact binary encoding
(section 4.1 and the JsonValue invariant in section 3).  The model below
implements SQLite's documented JSONB element layout: every element is a
header byte whose low four bits are the element type and high four bits the
payload size (with 12/13/14 escaping to 1-, 2- and 4-byte big-endian size
fields), followed by the payload; numbers carry their ASCII text, strings
their UTF-8 bytes, arrays and objects the concatenated encodings of their
children, an object's keys being string elements.  The model encoder emits
types NULL, TRUE, FALSE, INT, FLOAT, TEXT, ARRAY and OBJECT; the decoder
accepts those and the equivalent INT5/FLOAT5/TEXTRAW codes and fails on
anything else, matching the contract that decoding a value that is not
valid binary JSON fails rather than returning a partial result. -/

/-- Header of a JSONB element: type code and payload size. -/
def encodeHeader (t n : Nat) : List Nat :=
  if n ≤ 11 then [n * 16 + t]
  else if n < 256 then [12 * 16 + t, n]
  else if n < 65536 then [13 * 16 + t, n / 256, n % 256]
  else [14 * 16 + t, n / 16777216 % 256, n / 65536 % 256, n / 256 % 256, n % 256]

/-- Reads a JSONB element header: the type code, payload size and rest. -/
def decodeHeader : List Nat → Option (Nat × Nat × List Nat)
  | [] => none
  | b :: bs =>
    if b / 16 ≤ 11 then some (b % 16, b / 16, bs)
    else if b / 16 = 12 then
      match bs with
      | s0 :: r => some (b % 16, s0, r)
      | _ => none
    else if b / 16 = 13 then
      match bs with
      | s0 :: s1 :: r => some (b % 16, s0 * 256 + s1, r)
      | _ => none
    else if b / 16 = 14 then
      match bs with
      | s0 :: s1 :: s2 :: s3 :: r => some (b % 16, ((s0 * 256 + s1) * 256 + s2) * 256 + s3, r)
      | _ => none
    else none

/-- Type code the model encoder uses for a number: FLOAT when the text has
a fractional or exponent marker, INT otherwise. -/
def numTypeCode (s : String) : Nat :=
  if containsSub ['.'] s.data || containsSub ['e'] s.data || containsSub ['E'] s.data
  then 5 else 3

mutual

/-- JSONB encoding of one JSON value as an element. -/
def jsonbEncodeEl : Json → List Nat
  | .null => [0]
  | .bool true => [1]
  | .bool false => [2]
  | .num s =>
    encodeHeader (numTypeCode s) (utf8Encode s.data).length ++ utf8Encode s.data
  | .str s =>
    encodeHeader 7 (utf8Encode s.data).length ++ utf8Encode s.data
  | .arr xs =>
    encodeHeader 11 (jsonbEncodeList xs).length ++ jsonbEncodeList xs
  | .obj kvs =>
    encodeHeader 12 (jsonbEncodeKVs kvs).length ++ jsonbEncodeKVs kvs

/-- JSONB encoding of an array payload. -/
def jsonbEncodeList : List Json → List Nat
  | [] => []
  | x :: xs => jsonbEncodeEl x ++ jsonbEncodeList xs

/-- JSONB encoding of an object payload: alternating key string elements
(written out, the same bytes as the element encoding of the key as a JSON
string) and value elements. -/
def jsonbEncodeKVs : List (String × Json) → List Nat
  | [] => []
  | kv :: kvs =>
    (encodeHeader 7 (utf8Encode kv.1.data).length ++ utf8Encode kv.1.data)
      ++ jsonbEncodeEl kv.2 ++ jsonbEncodeKVs kvs

end

mutual

/-- JSONB decoding of one element from the head of the input. -/
def jsonbDecodeEl : Nat → List Nat → Option (Json × List Nat)
  | 0, _ => none
  | fuel + 1, bs =>
    match decodeHeader bs with
    | none => none
    | some (t, n, r) =>
      if t = 0 then (if n = 0 then some (Json.null, r) else none)
      else if t = 1 then (if n = 0 then some (Json.bool true, r) else none)
      else if t = 2 then (if n = 0 then some (Json.bool false, r) else none)
      else if t = 3 ∨ t = 4 ∨ t = 5 ∨ t = 6 then
        if n ≤ r.length then
          match utf8Decode (r.take n) with
          | some cs => some (Json.num (String.mk cs), r.drop n)
          | none => none
        else none
      else if t = 7 ∨ t = 10 then
        if n ≤ r.length then
          match utf8Decode (r.take n) with
          | some cs => some (Json.str (String.mk cs), r.drop n)
          | none => none
        else none
      else if t = 11 then
        if n ≤ r.length then
          match jsonbDecodeList fuel (r.take n) with
          | some xs => some (Json.arr xs, r.drop n)
          | none => none
        else none
      else if t = 12 then
        if n ≤ r.length then
          match jsonbDecodeKVs fuel (r.take n) with
          | some kvs => some (Json.obj kvs, r.drop n)
          | none => none
        else none
      else none

/-- JSONB decoding of a whole array payload. -/
def jsonbDecodeList : Nat → List Nat → Option (List Json)
  | 0, _ => none
  | fuel + 1, bs =>
    match bs with
    | [] => some []
    | _ :: _ =>
      match jsonbDecodeEl fuel bs with
      | some (v, r) =>
        match jsonbDecodeList fuel r with
        | some xs => some (v :: xs)
        | none => none
      | none => none

/-- JSONB decoding of a whole object payload. -/
def jsonbDecodeKVs : Nat → List Nat → Option (List (String × Json))
  | 0, _ => none
  | fuel + 1, bs =>
    match bs with
    | [] => some []
    | _ :: _ =>
      match jsonbDecodeEl fuel bs with
      | some (Json.str k, r) =>
        match jsonbDecodeEl fuel r with
        | some (v, r2) =>
          match jsonbDecodeKVs fuel r2 with
          | some kvs => some ((k, v) :: kvs)
          | none => none
        | none => none
      | some _ => none
      | none => none

end

/-- JSONB decoding of a complete blob: one element consuming every byte.
The fuel is generous for the blob's length. -/
def jsonbDecodeTop (bs : List Nat) : Option Json :=
  match jsonbDecodeEl (2 * bs.length + 2) bs with
  | some (v, []) => some v
  | _ => none

mutual

/-- Every payload length in the value fits the 4-byte size field of the
binary format. -/
def sizeOk : Json → Bool
  | .null => true
  | .bool _ => true
  | .num s => (utf8Encode s.data).length < 4294967296
  | .str s => (utf8Encode s.data).length < 4294967296
  | .arr xs => (jsonbEncodeList xs).length < 4294967296 && sizeOkList xs
  | .obj kvs => (jsonbEncodeKVs kvs).length < 4294967296 && sizeOkKVs kvs

/-- Size bound for every element of a list. -/
def sizeOkList : List Json → Bool
  | [] => true
  | x :: xs => sizeOk x && sizeOkList xs

/-- Size bound for every member of an object. -/
def sizeOkKVs : List (String × Json) → Bool
  | [] => true
  | kv :: kvs => (utf8Encode kv.1.data).length < 4294967296 && sizeOk kv.2 && sizeOkKVs kvs

end

mutual

/-- Fuel needed to decode an encoded value. -/
def jbweight : Json → Nat
  | .null => 1
  | .bool _ => 1
  | .num _ => 1
  | .str _ => 1
  | .arr xs => 1 + jbweightList xs
  | .obj kvs => 1 + jbweightKVs kvs

/-- Fuel needed to decode an encoded array payload. -/
def jbweightList : List Json → Nat
  | [] => 1
  | x :: xs => 1 + max (jbweight x) (jbweightList xs)

/-- Fuel needed to decode an encoded object payload. -/
def jbweightKVs : List (String × Json) → Nat
  | [] => 1
  | kv :: kvs => 1 + max 1 (max (jbweight kv.2) (jbweightKVs kvs))

end

theorem decodeHeader_encode {t n : Nat} (ht : t < 16) (hn : n < 4294967296)
    (rest : List Nat) :
    decodeHeader (encodeHeader t n ++ rest) = some (t, n, rest) := by
  unfold encodeHeader
  by_cases h1 : n ≤ 11
  · rw [if_pos h1]
    show decodeHeader ((n * 16 + t) :: rest) = _
    unfold decodeHeader
    dsimp only
    have e1 : (n * 16 + t) / 16 = n := by omega
    have e2 : (n * 16 + t) % 16 = t := by omega
    rw [e1, e2, if_pos h1]
  · rw [if_neg h1]
    by_cases h2 : n < 256
    · rw [if_pos h2]
      show decodeHeader ((12 * 16 + t) :: n :: rest) = _
      unfold decodeHeader
      dsimp only
      have e1 : (12 * 16 + t) / 16 = 12 := by omega
      have e2 : (12 * 16 + t) % 16 = t := by omega
      rw [e1, e2]
      norm_num
    · rw [if_neg h2]
      by_cases h3 : n < 65536
      · rw [if_pos h3]
        show decodeHeader ((13 * 16 + t) :: (n / 256) :: (n % 256) :: rest) = _
        unfold decodeHeader
        dsimp only
        have e1 : (13 * 16 + t) / 16 = 13 := by omega
        have e2 : (13 * 16 + t) % 16 = t := by omega
        rw [e1, e2]
        norm_num
        omega
      · rw [if_neg h3]
        show decodeHeader ((14 * 16 + t) :: (n / 16777216 % 256) :: (n / 65536 % 256)
          :: (n / 256 % 256) :: (n % 256) :: rest) = _
        unfold decodeHeader
        dsimp only
        have e1 : (14 * 16 + t) / 16 = 14 := by omega
        have e2 : (14 * 16 + t) % 16 = t := by omega
        rw [e1, e2]
        norm_num
        omega

theorem encodeHeader_length_pos (t n : Nat) : 1 ≤ (encodeHeader t n).length := by
  unfold encodeHeader
  split_ifs <;> simp

theorem jsonbEncodeEl_length_pos (v : Json) : 1 ≤ (jsonbEncodeEl v).length := by
  cases v with
  | null => simp [jsonbEncodeEl]
  | bool b => cases b <;> simp [jsonbEncodeEl]
  | num s =>
    have := encodeHeader_length_pos (numTypeCode s) (utf8Encode s.data).length
    simp only [jsonbEncodeEl, List.length_append]
    omega
  | str s =>
    have := encodeHeader_length_pos 7 (utf8Encode s.data).length
    simp only [jsonbEncodeEl, List.length_append]
    omega
  | arr xs =>
    have := encodeHeader_length_pos 11 (jsonbEncodeList xs).length
    simp only [jsonbEncodeEl, List.length_append]
    omega
  | obj kvs =>
    have := encodeHeader_length_pos 12 (jsonbEncodeKVs kvs).length
    simp only [jsonbEncodeEl, List.length_append]
    omega

theorem jbweight_pos (v : Json) : 1 ≤ jbweight v := by
  cases v <;> simp only [jbweight] <;> omega

theorem jbweight_le_all : ∀ n : Nat,
    (∀ v : Json, jbweight v ≤ n → jbweight v ≤ 2 * (jsonbEncodeEl v).length + 1) ∧
    (∀ xs : List Json, jbweightList xs ≤ n →
      jbweightList xs ≤ 2 * (jsonbEncodeList xs).length + 2) ∧
    (∀ kvs : List (String × Json), jbweightKVs kvs ≤ n →
      jbweightKVs kvs ≤ 2 * (jsonbEncodeKVs kvs).length + 2) := by
  intro n
  induction n using Nat.strong_induction_on with
  | _ n ih =>
  refine ⟨?_, ?_, ?_⟩
  · intro v hn
    cases v with
    | null => simp [jbweight]
    | bool b => simp [jbweight]
    | num s => simp [jbweight]
    | str s => simp [jbweight]
    | arr xs =>
      have hw : jbweight (Json.arr xs) = 1 + jbweightList xs := rfl
      have hnn : 1 ≤ n := by omega
      obtain ⟨ih1, ih2, ih3⟩ := ih (n - 1) (by omega)
      have hxs := ih2 xs (by omega)
      have hh := encodeHeader_length_pos 11 (jsonbEncodeList xs).length
      have hlen : (jsonbEncodeEl (Json.arr xs)).length
          = (encodeHeader 11 (jsonbEncodeList xs).length).length
            + (jsonbEncodeList xs).length := by
        simp [jsonbEncodeEl]
      omega
    | obj kvs =>
      have hw : jbweight (Json.obj kvs) = 1 + jbweightKVs kvs := rfl
      have hnn : 1 ≤ n := by omega
      obtain ⟨ih1, ih2, ih3⟩ := ih (n - 1) (by omega)
      have hkvs := ih3 kvs (by omega)
      have hh := encodeHeader_length_pos 12 (jsonbEncodeKVs kvs).length
      have hlen : (jsonbEncodeEl (Json.obj kvs)).length
          = (encodeHeader 12 (jsonbEncodeKVs kvs).length).length
            + (jsonbEncodeKVs kvs).length := by
        simp [jsonbEncodeEl]
      omega
  · intro xs hn
    cases xs with
    | nil => simp [jbweightList, jsonbEncodeList]
    | cons x xs' =>
      have hw : jbweightList (x :: xs') = 1 + max (jbweight x) (jbweightList xs') := rfl
      have hnn : 1 ≤ n := by omega
      obtain ⟨ih1, ih2, ih3⟩ := ih (n - 1) (by omega)
      have hx := ih1 x (by have := jbweight_pos x; omega)
      have hxs := ih2 xs' (by omega)
      have hp := jsonbEncodeEl_length_pos x
      have hlen : (jsonbEncodeList (x :: xs')).length
          = (jsonbEncodeEl x).length + (jsonbEncodeList xs').length := by
        simp [jsonbEncodeList]
      omega
  · intro kvs hn
    cases kvs with
    | nil => simp [jbweightKVs, jsonbEncodeKVs]
    | cons kv kvs' =>
      have hw : jbweightKVs (kv :: kvs')
          = 1 + max 1 (max (jbweight kv.2) (jbweightKVs kvs')) := rfl
      have hnn : 1 ≤ n := by omega
      obtain ⟨ih1, ih2, ih3⟩ := ih (n - 1) (by omega)
      have hv := ih1 kv.2 (by have := jbweight_pos kv.2; omega)
      have hkvs := ih3 kvs' (by omega)
      have hp := jsonbEncodeEl_length_pos kv.2
      have hk := encodeHeader_length_pos 7 (utf8Encode kv.1.data).length
      have hlen : (jsonbEncodeKVs (kv :: kvs')).length
          = (encodeHeader 7 (utf8Encode kv.1.data).length).length
            + (utf8Encode kv.1.data).length
            + (jsonbEncodeEl kv.2).length + (jsonbEncodeKVs kvs').length := by
        simp [jsonbEncodeKVs]
        omega
      omega

theorem jsonb_roundtrip_all : ∀ n : Nat,
    (∀ v : Json, jbweight v ≤ n → sizeOk v = true → ∀ fuel, jbweight v ≤ fuel →
      ∀ rest, jsonbDecodeEl fuel (jsonbEncodeEl v ++ rest) = some (v, rest)) ∧
    (∀ xs : List Json, jbweightList xs ≤ n → sizeOkList xs = true →
      ∀ fuel, jbweightList xs ≤ fuel →
      jsonbDecodeList fuel (jsonbEncodeList xs) = some xs) ∧
    (∀ kvs : List (String × Json), jbweightKVs kvs ≤ n → sizeOkKVs kvs = true →
      ∀ fuel, jbweightKVs kvs ≤ fuel →
      jsonbDecodeKVs fuel (jsonbEncodeKVs kvs) = some kvs) := by
  intro n
  induction n using Nat.strong_induction_on with
  | _ n ih =>
  refine ⟨?_, ?_, ?_⟩
  · intro v hn hs fuel hfuel rest
    obtain ⟨f, rfl⟩ : ∃ f, fuel = f + 1 := ⟨fuel - 1, by have := jbweight_pos v; omega⟩
    cases v with
    | null =>
      rw [jsonbDecodeEl.eq_def]
      simp [jsonbEncodeEl, decodeHeader]
    | bool b =>
      cases b <;> (rw [jsonbDecodeEl.eq_def]; simp [jsonbEncodeEl, decodeHeader])
    | num s =>
      have hsz : (utf8Encode s.data).length < 4294967296 := by
        simpa [sizeOk] using hs
      have h35 : numTypeCode s = 3 ∨ numTypeCode s = 5 := by
        unfold numTypeCode
        by_cases h : (containsSub ['.'] s.data || containsSub ['e'] s.data
            || containsSub ['E'] s.data) = true
        · rw [if_pos h]; right; rfl
        · rw [if_neg h]; left; rfl
      have henc : jsonbEncodeEl (Json.num s)
          = encodeHeader (numTypeCode s) (utf8Encode s.data).length
            ++ utf8Encode s.data := rfl
      rw [jsonbDecodeEl.eq_def, henc, List.append_assoc]
      dsimp only
      have hht : numTypeCode s < 16 := by rcases h35 with h | h <;> omega
      rw [decodeHeader_encode hht hsz]
      dsimp only
      have htake : (utf8Encode s.data ++ rest).take (utf8Encode s.data).length
          = utf8Encode s.data := List.take_left _ _
      have hdrop : (utf8Encode s.data ++ rest).drop (utf8Encode s.data).length
          = rest := List.drop_left _ _
      rcases h35 with h35 | h35 <;>
        simp [h35, htake, hdrop, utf8Decode_encode, string_mk_data,
          List.length_append]
    | str s =>
      have hsz : (utf8Encode s.data).length < 4294967296 := by
        simpa [sizeOk] using hs
      have henc : jsonbEncodeEl (Json.str s)
          = encodeHeader 7 (utf8Encode s.data).length ++ utf8Encode s.data := rfl
      rw [jsonbDecodeEl.eq_def, henc, List.append_assoc]
      dsimp only
      rw [decodeHeader_encode (by omega) hsz]
      dsimp only
      have htake : (utf8Encode s.data ++ rest).take (utf8Encode s.data).length
          = utf8Encode s.data := List.take_left _ _
      have hdrop : (utf8Encode s.data ++ rest).drop (utf8Encode s.data).length
          = rest := List.drop_left _ _
      simp [htake, hdrop, utf8Decode_encode, string_mk_data, List.length_append]
    | arr xs =>
      have hw : jbweight (Json.arr xs) = 1 + jbweightList xs := rfl
      have hsz : (jsonbEncodeList xs).length < 4294967296 ∧ sizeOkList xs = true := by
        simpa [sizeOk, Bool.and_eq_true] using hs
      have hnn : 1 ≤ n := by omega
      obtain ⟨ih1, ih2, ih3⟩ := ih (n - 1) (by omega)
      have hrec := ih2 xs (by omega) hsz.2 f (by omega)
      have henc : jsonbEncodeEl (Json.arr xs)
          = encodeHeader 11 (jsonbEncodeList xs).length ++ jsonbEncodeList xs := rfl
      rw [jsonbDecodeEl.eq_def, henc, List.append_assoc]
      dsimp only
      rw [decodeHeader_encode (by omega) hsz.1]
      dsimp only
      have htake : (jsonbEncodeList xs ++ rest).take (jsonbEncodeList xs).length
          = jsonbEncodeList xs := List.take_left _ _
      have hdrop : (jsonbEncodeList xs ++ rest).drop (jsonbEncodeList xs).length
          = rest := List.drop_left _ _
      simp [htake, hdrop, hrec, List.length_append]
    | obj kvs =>
      have hw : jbweight (Json.obj kvs) = 1 + jbweightKVs kvs := rfl
      have hsz : (jsonbEncodeKVs kvs).length < 4294967296 ∧ sizeOkKVs kvs = true := by
        simpa [sizeOk, Bool.and_eq_true] using hs
      have hnn : 1 ≤ n := by omega
      obtain ⟨ih1, ih2, ih3⟩ := ih (n - 1) (by omega)
      have hrec := ih3 kvs (by omega) hsz.2 f (by omega)
      have henc : jsonbEncodeEl (Json.obj kvs)
          = encodeHeader 12 (jsonbEncodeKVs kvs).length ++ jsonbEncodeKVs kvs := rfl
      rw [jsonbDecodeEl.eq_def, henc, List.append_assoc]
      dsimp only
      rw [decodeHeader_encode (by omega) hsz.1]
      dsimp only
      have htake : (jsonbEncodeKVs kvs ++ rest).take (jsonbEncodeKVs kvs).length
          = jsonbEncodeKVs kvs := List.take_left _ _
      have hdrop : (jsonbEncodeKVs kvs ++ rest).drop (jsonbEncodeKVs kvs).length
          = rest := List.drop_left _ _
      simp [htake, hdrop, hrec, List.length_append]
  · intro xs hn hs fuel hfuel
    cases xs with
    | nil =>
      obtain ⟨f, rfl⟩ : ∃ f, fuel = f + 1 := ⟨fuel - 1, by simp [jbweightList] at hfuel; omega⟩
      rfl
    | cons x xs' =>
      have hw : jbweightList (x :: xs') = 1 + max (jbweight x) (jbweightList xs') := rfl
      obtain ⟨g, rfl⟩ : ∃ g, fuel = g + 1 := ⟨fuel - 1, by omega⟩
      have hsx : sizeOk x = true ∧ sizeOkList xs' = true := by
        simpa [sizeOkList, Bool.and_eq_true] using hs
      have hnn : 1 ≤ n := by omega
      obtain ⟨ih1, ih2, ih3⟩ := ih (n - 1) (by omega)
      have h1 := ih1 x (by have := jbweight_pos x; omega) hsx.1 g (by omega)
        (jsonbEncodeList xs')
      have h2 := ih2 xs' (by omega) hsx.2 g (by omega)
      have henc : jsonbEncodeList (x :: xs') = jsonbEncodeEl x ++ jsonbEncodeList xs' := rfl
      obtain ⟨b, bs0, hb⟩ : ∃ b bs0, jsonbEncodeEl x ++ jsonbEncodeList xs' = b :: bs0 := by
        cases he : jsonbEncodeEl x with
        | nil =>
          have := jsonbEncodeEl_length_pos x
          rw [he] at this
          simp at this
        | cons b bs1 => exact ⟨b, bs1 ++ jsonbEncodeList xs', by simp⟩
      rw [henc, hb, jsonbDecodeList.eq_def]
      dsimp only
      rw [← hb, h1]
      dsimp only
      rw [h2]
  · intro kvs hn hs fuel hfuel
    cases kvs with
    | nil =>
      obtain ⟨f, rfl⟩ : ∃ f, fuel = f + 1 := ⟨fuel - 1, by simp [jbweightKVs] at hfuel; omega⟩
      rfl
    | cons kv kvs' =>
      obtain ⟨k, v⟩ := kv
      have hw : jbweightKVs ((k, v) :: kvs')
          = 1 + max 1 (max (jbweight v) (jbweightKVs kvs')) := rfl
      obtain ⟨g, rfl⟩ : ∃ g, fuel = g + 1 := ⟨fuel - 1, by omega⟩
      have hsx : (utf8Encode k.data).length < 4294967296 ∧ sizeOk v = true
          ∧ sizeOkKVs kvs' = true := by
        simpa [sizeOkKVs, Bool.and_eq_true, and_assoc] using hs
      have hnn : 1 ≤ n := by omega
      obtain ⟨ih1, ih2, ih3⟩ := ih (n - 1) (by omega)
      have hkey := ih1 (Json.str k) (by simp [jbweight]; omega)
        (by simpa [sizeOk] using hsx.1) g (by simp [jbweight]; omega)
        (jsonbEncodeEl v ++ jsonbEncodeKVs kvs')
      have h1 := ih1 v (by have := jbweight_pos v; omega) hsx.2.1 g (by omega)
        (jsonbEncodeKVs kvs')
      have h2 := ih3 kvs' (by omega) hsx.2.2 g (by omega)
      have henc : jsonbEncodeKVs ((k, v) :: kvs')
          = jsonbEncodeEl (Json.str k) ++ (jsonbEncodeEl v ++ jsonbEncodeKVs kvs') := by
        simp [jsonbEncodeKVs, jsonbEncodeEl]
      obtain ⟨b, bs0, hb⟩ : ∃ b bs0, jsonbEncodeEl (Json.str k)
          ++ (jsonbEncodeEl v ++ jsonbEncodeKVs kvs') = b :: bs0 := by
        cases he : jsonbEncodeEl (Json.str k) with
        | nil =>
          have := jsonbEncodeEl_length_pos (Json.str k)
          rw [he] at this
          simp at this
        | cons b bs1 => exact ⟨b, bs1 ++ (jsonbEncodeEl v ++ jsonbEncodeKVs kvs'), by simp⟩
      rw [henc, hb, jsonbDecodeKVs.eq_def]
      dsimp only
      rw [← hb, hkey]
      dsimp only
      rw [h1]
      dsimp only
      rw [h2]

theorem jsonbDecodeTop_encode {v : Json} (hs : sizeOk v = true) :
    jsonbDecodeTop (jsonbEncodeEl v) = some v := by
  unfold jsonbDecodeTop
  have hb := (jbweight_le_all (jbweight v)).1 v le_rfl
  have h := (jsonb_roundtrip_all (jbweight v)).1 v le_rfl hs
    (2 * (jsonbEncodeEl v).length + 2) (by omega) []
  rw [List.append_nil] at h
  rw [h]

/-! ## Python values and json.loads

The code calls json.loads through validate_json (jsonb_utils.py), whose
except clause catches exactly JSONDecodeError and TypeError.  To settle the
totality claim the model covers json.loads' whole input behavior: a str is
parsed; a bytes value is first decoded per json.detect_encoding with the
surrogatepass error handler and then parsed; every other Python value
raises TypeError.  Values are modelled by the cases that behave
differently: None and numbers (and every other non-str, non-bytes object)
are all on the TypeError path and are represented by dedicated or catch-all
constructors. -/

inductive PyVal where
  | pyNone : PyVal
  | pyInt (n : Int) : PyVal
  | str (s : String) : PyVal
  | bytes (bs : List Nat) : PyVal
  | obj : PyVal
  deriving DecidableEq

inductive PyExc where
  | typeError : PyExc
  | jsonDecodeError : PyExc
  | unicodeDecodeError : PyExc
  deriving DecidableEq

/-- Prefix test on byte lists (Python bytes.startswith). -/
def startsWithNat : List Nat → List Nat → Bool
  | _, [] => true
  | [], _ :: _ => false
  | b :: bs, p :: ps => b = p && startsWithNat bs ps

inductive PyEnc where
  | utf32 | utf16 | utf8sig | utf16be | utf32be | utf16le | utf32le | utf8
  deriving DecidableEq

/-- Model of json.detect_encoding from CPython: BOM sniffing first, then
null-byte patterns on the first bytes, defaulting to UTF-8. -/
def detect_encoding (b : List Nat) : PyEnc :=
  if startsWithNat b [0, 0, 254, 255] || startsWithNat b [255, 254, 0, 0] then .utf32
  else if startsWithNat b [254, 255] || startsWithNat b [255, 254] then .utf16
  else if startsWithNat b [239, 187, 191] then .utf8sig
  else if 4 ≤ b.length then
    match b with
    | b0 :: b1 :: b2 :: b3 :: _ =>
      if b0 = 0 then (if b1 ≠ 0 then .utf16be else .utf32be)
      else if b1 = 0 then (if b2 ≠ 0 ∨ b3 ≠ 0 then .utf16le else .utf32le)
      else .utf8
    | _ => .utf8
  else if b.length = 2 then
    match b with
    | b0 :: b1 :: _ =>
      if b0 = 0 then .utf16be
      else if b1 = 0 then .utf16le
      else .utf8
    | _ => .utf8
  else .utf8

/-- Byte pairs to 16-bit code units; fails on a truncated final unit. -/
def bytesToU16 (be : Bool) : List Nat → Option (List Nat)
  | [] => some []
  | [_] => none
  | b0 :: b1 :: r =>
    match bytesToU16 be r with
    | some us => some ((if be then b0 * 256 + b1 else b1 * 256 + b0) :: us)
    | none => none

/-- UTF-16 code units to characters under surrogatepass: surrogate pairs
combine, lone surrogates stand (represented by the replacement character,
as elsewhere). -/
def u16ToChars : List Nat → List Char
  | [] => []
  | [u] =>
    if 0xD800 ≤ u ∧ u < 0xE000 then [Char.ofNat 0xFFFD]
    else [Char.ofNat u]
  | u :: u2 :: us2 =>
    if 0xD800 ≤ u ∧ u < 0xDC00 then
      if 0xDC00 ≤ u2 ∧ u2 < 0xE000 then
        Char.ofNat (0x10000 + (u - 0xD800) * 1024 + (u2 - 0xDC00)) :: u16ToChars us2
      else Char.ofNat 0xFFFD :: u16ToChars (u2 :: us2)
    else if 0xDC00 ≤ u ∧ u < 0xE000 then Char.ofNat 0xFFFD :: u16ToChars (u2 :: us2)
    else Char.ofNat u :: u16ToChars (u2 :: us2)

/-- Byte quadruples to 32-bit code units; fails on a truncated final
unit. -/
def bytesToU32 (be : Bool) : List Nat → Option (List Nat)
  | [] => some []
  | b0 :: b1 :: b2 :: b3 :: r =>
    match bytesToU32 be r with
    | some us =>
      some ((if be then ((b0 * 256 + b1) * 256 + b2) * 256 + b3
        else ((b3 * 256 + b2) * 256 + b1) * 256 + b0) :: us)
    | none => none
  | _ => none

/-- UTF-32 code units to characters under surrogatepass: fails above the
Unicode range, surrogates stand. -/
def u32ToChars : List Nat → Option (List Char)
  | [] => some []
  | u :: us =>
    if u < 0x110000 then
      match u32ToChars us with
      | some cs =>
        some ((if 0xD800 ≤ u ∧ u < 0xE000 then Char.ofNat 0xFFFD else Char.ofNat u) :: cs)
      | none => none
    else none

/-- Model of the bytes-decoding step of json.loads: decode per the detected
encoding with surrogatepass (the BOM-carrying codecs consume the BOM). -/
def pyDecodeBytes (bs : List Nat) : Option (List Char) :=
  match detect_encoding bs with
  | .utf8 => utf8Decode bs
  | .utf8sig => utf8Decode (bs.drop 3)
  | .utf16 =>
    if startsWithNat bs [254, 255] then (bytesToU16 true (bs.drop 2)).map u16ToChars
    else (bytesToU16 false (bs.drop 2)).map u16ToChars
  | .utf16be => (bytesToU16 true bs).map u16ToChars
  | .utf16le => (bytesToU16 false bs).map u16ToChars
  | .utf32 =>
    if startsWithNat bs [0, 0, 254, 255] then (bytesToU32 true (bs.drop 4)).bind u32ToChars
    else (bytesToU32 false (bs.drop 4)).bind u32ToChars
  | .utf32be => (bytesToU32 true bs).bind u32ToChars
  | .utf32le => (bytesToU32 false bs).bind u32ToChars

/-- Model of json.loads over the Python value universe. -/
def json_loads : PyVal → Except PyExc Json
  | .str s =>
    match parseJson s with
    | some v => .ok v
    | none => .error .jsonDecodeError
  | .bytes bs =>
    match pyDecodeBytes bs with
    | some cs =>
      match parseJson (String.mk cs) with
      | some v => .ok v
      | none => .error .jsonDecodeError
    | none => .error .unicodeDecodeError
  | _ => .error .typeError

/-- Model of validate_json from jsonb_utils.py: json.loads inside a try
block whose except clause catches exactly (json.JSONDecodeError,
TypeError); any other exception escapes to the caller. -/
def validate_json (json_str : PyVal) : Except PyExc Bool :=
  match json_loads json_str with
  | .ok _ => .ok true
  | .error .jsonDecodeError => .ok false
  | .error .typeError => .ok false
  | .error e => .error e

/-! ## The codec of jsonb_utils.py

convert_to_jsonb and convert_from_jsonb execute one engine statement each
(SELECT jsonb(?) and SELECT json(?)).  The model returns the Python-level
result together with the list of engine statements issued, so that claims
about engine traffic are statable.  Both source functions catch every
exception and return None, so their model result is an Option, never an
error. -/

/-- Model of convert_to_jsonb from jsonb_utils.py.  The single engine call
SELECT jsonb(?) is always issued; the engine (modelled from the spec, see
the binary format section) parses the bound text and produces the binary
encoding, raising on malformed input or an oversized document — which the
except clause turns into a None return. -/
def convert_to_jsonb (json_str : String) : Option (List Nat) × List String :=
  (match parseJson json_str with
    | some v => if sizeOk v then some (jsonbEncodeEl v) else none
    | none => none,
   ["SELECT jsonb(?)"])

/-- Model of convert_from_jsonb from jsonb_utils.py.  The single engine
call SELECT json(?) is always issued; the engine decodes the bound blob and
renders the value as canonical JSON text, raising on an invalid blob —
which the except clause turns into a None return. -/
def convert_from_jsonb (jsonb_data : List Nat) : Option String × List String :=
  (match jsonbDecodeTop jsonb_data with
    | some v => some (renderJson v)
    | none => none,
   ["SELECT json(?)"])

/-! ## Database, connections and the transactional executor

The database state is a list of named tables, each a list of rows; a row
maps column names to values.  The SQL semantics of an individual statement
is not part of any claim, so the engine's statement execution is a
parameter (an arbitrary function from the statement, parameters and
current state to an outcome); the claims quantify over it.  A connection
tracks the durable (committed) state and the connection's current state:
begin is a no-op marker, commit publishes the current state, rollback
restores the committed one, and closing a connection discards uncommitted
changes — the transactional semantics of the embedded engine. -/

inductive Value where
  | int (n : Int) : Value
  | text (s : String) : Value
  | blob (bs : List Nat) : Value
  | null : Value
  | jsonv (j : Json) : Value

/-- A result row: column name to value, as the row_factory dict. -/
abbrev Row := List (String × Value)

/-- The database: named tables of rows. -/
abbrev DB := List (String × List Row)

/-- Outcome of the engine executing one statement: success with the new
current state, fetched rows and a rowcount, or an engine error, which may
leave partial changes in the connection's uncommitted current state. -/
inductive ExecOutcome where
  | ok (newCur : DB) (rows : List Row) (rowcount : Int) : ExecOutcome
  | err (msg : String) (newCur : DB) : ExecOutcome

/-- The engine's statement execution, quantified over in the claims. -/
abbrev EngineExec := String → Option (List (String × PyVal)) → DB → ExecOutcome

structure Conn where
  committed : DB
  current : DB

def beginTxn (c : Conn) : Conn := c

def commitTxn (c : Conn) : Conn := { c with committed := c.current }

def rollbackTxn (c : Conn) : Conn := { c with current := c.committed }

/-- Closing a connection discards uncommitted changes. -/
def closeConn (c : Conn) : DB := c.committed

/-- Events of one execution, in order. -/
inductive Ev where
  | beginTx : Ev
  | execCall : Ev
  | commitTx : Ev
  | rollbackTx : Ev
  deriving DecidableEq

/-- Read-statement test of safe_execute_query (transaction_safety.py):
query.strip().upper().startswith("SELECT"). -/
def is_read_query (query : String) : Bool :=
  startsWithChars (pyStripUpper query) "SELECT".data

/-- Model of safe_execute_query from transaction_safety.py: open a
connection, begin an explicit transaction for non-read statements, execute,
then commit and report the affected-row count (write) or fetch and return
the rows (read); on an engine error roll back (non-read) and re-raise the
original error.  Returns the result, the on-disk state after the
connection closes, and the event trace. -/
def safe_execute_query (exec : EngineExec) (db_path : DB) (query : String)
    (params : Option (List (String × PyVal))) :
    Except String (List Row) × DB × List Ev :=
  if is_read_query query then
    match exec query params (Conn.mk db_path db_path).current with
    | .ok cur rows _n =>
      (.ok rows, closeConn { Conn.mk db_path db_path with current := cur }, [Ev.execCall])
    | .err e cur =>
      (.error e, closeConn { Conn.mk db_path db_path with current := cur }, [Ev.execCall])
  else
    match exec query params (beginTxn (Conn.mk db_path db_path)).current with
    | .ok cur rows n =>
      (.ok [[("affected_rows", Value.int n)]],
        closeConn (commitTxn { beginTxn (Conn.mk db_path db_path) with current := cur }),
        [Ev.beginTx, Ev.execCall, Ev.commitTx])
    | .err e cur =>
      (.error e,
        closeConn (rollbackTxn { beginTxn (Conn.mk db_path db_path) with current := cur }),
        [Ev.beginTx, Ev.execCall, Ev.rollbackTx])

/-- Statement class (spec section 3): a prefix test on the trimmed,
case-normalized statement text, with the prefix sets the code tests
(SELECT; INSERT/UPDATE/DELETE; CREATE/DROP/ALTER). -/
inductive StmtClass where
  | read : StmtClass
  | write : StmtClass
  | schemaChange : StmtClass
  | other : StmtClass
  deriving DecidableEq

def statementClass (q : String) : StmtClass :=
  if startsWithChars (pyStripUpper q) "SELECT".data then .read
  else if startsWithChars (pyStripUpper q) "INSERT".data
      || startsWithChars (pyStripUpper q) "UPDATE".data
      || startsWithChars (pyStripUpper q) "DELETE".data then .write
  else if startsWithChars (pyStripUpper q) "CREATE".data
      || startsWithChars (pyStripUpper q) "DROP".data
      || startsWithChars (pyStripUpper q) "ALTER".data then .schemaChange
  else .other

/-! ## The enhanced executor of server.py -/

/-- Python truthiness of the parameter values the code inspects. -/
def pyTruthy : PyVal → Bool
  | .pyNone => false
  | .pyInt n => n ≠ 0
  | .str s => ¬ s.data.isEmpty
  | .bytes bs => ¬ bs.isEmpty
  | .obj => true

/-- Python truthiness of the params dict (None or empty is falsy). -/
def paramsTruthy : Option (List (String × PyVal)) → Bool
  | none => false
  | some ps => ¬ ps.isEmpty

/-- Key lookup in the params dict. -/
def lookupParam (params : Option (List (String × PyVal))) (k : String) : Option PyVal :=
  match params with
  | none => none
  | some ps => ps.lookup k

/-- Model of the JSONB parameter-rewrite block of _execute_query
(server.py): for an INSERT/UPDATE mentioning memory_journal and metadata,
with a truthy metadata parameter, the code calls validate_json on the
parameter — discarding its boolean result — and, unless the text already
contains jsonb(?), replaces the literal fragment metadata = ? by
metadata = jsonb(?).  Only an exception escaping validate_json (never
raised for text parameters, since validate_json returns False instead)
reaches the except clause and skips the rewrite. -/
def jsonbRewrite (jsonbOn : Bool) (query : String)
    (params : Option (List (String × PyVal))) : String :=
  if jsonbOn
      && (startsWithChars (pyStripUpper query) "INSERT".data
        || startsWithChars (pyStripUpper query) "UPDATE".data)
      && containsSub "memory_journal".data query.data
      && containsSub "metadata".data query.data then
    if (containsSub "INSERT INTO memory_journal".data query.data
        || containsSub "UPDATE memory_journal SET".data query.data)
        && paramsTruthy params
        && (lookupParam params "metadata").isSome then
      match lookupParam params "metadata" with
      | some mv =>
        if pyTruthy mv then
          match validate_json mv with
          | .ok _ =>
            if ¬ containsSub "jsonb(?)".data query.data then
              String.mk (replaceSub "metadata = ?".data "metadata = jsonb(?)".data query.data)
            else query
          | .error _ => query
        else query
      | none => query
    else query
  else query

/-- Write-class prefix test of _execute_query (server.py):
query.strip().upper().startswith(('INSERT', 'UPDATE', 'DELETE', 'CREATE',
'DROP', 'ALTER')). -/
def isWriteStmt (query : String) : Bool :=
  startsWithChars (pyStripUpper query) "INSERT".data
    || startsWithChars (pyStripUpper query) "UPDATE".data
    || startsWithChars (pyStripUpper query) "DELETE".data
    || startsWithChars (pyStripUpper query) "CREATE".data
    || startsWithChars (pyStripUpper query) "DROP".data
    || startsWithChars (pyStripUpper query) "ALTER".data

/-- Model of the result-set JSONB handling of the read path: a bytes value
in a column named metadata is converted through the engine's json()
function and parsed; a falsy (None or empty) conversion result or a
parsing failure leaves the raw blob in place. -/
def decodeCell (bs : List Nat) : Value :=
  match (convert_from_jsonb bs).1 with
  | some t =>
    if ¬ t.data.isEmpty then
      match json_loads (PyVal.str t) with
      | .ok v => Value.jsonv v
      | .error _ => Value.blob bs
    else Value.blob bs
  | none => Value.blob bs

/-- Per-cell processing of the read path: only blob values in a column
literally named metadata are touched, and only when JSONB support is on. -/
def decodeRowCell (jsonbOn : Bool) (k : String) (v : Value) : Value :=
  if jsonbOn then
    match v with
    | Value.blob bs => if k = "metadata" then decodeCell bs else v
    | _ => v
  else v

/-- Model of _execute_query from server.py (the EnhancedSqliteDatabase
executor): apply the JSONB parameter rewrite, execute, then either commit
and return the affected-row count (statements with a write-class prefix)
or return the fetched rows with metadata blobs opportunistically decoded
(every other statement; no commit is issued, so the connection's changes
are discarded on close).  Engine errors are logged and re-raised. -/
def execute_query (jsonbOn : Bool) (exec : EngineExec) (query : String)
    (params : Option (List (String × PyVal))) (db : DB) :
    Except String (List Row) × DB × List Ev :=
  match exec (jsonbRewrite jsonbOn query params) params (Conn.mk db db).current with
  | .ok cur rows n =>
    if isWriteStmt (jsonbRewrite jsonbOn query params) then
      (.ok [[("affected_rows", Value.int n)]],
        closeConn (commitTxn { Conn.mk db db with current := cur }),
        [Ev.execCall, Ev.commitTx])
    else
      (.ok (rows.map (fun row =>
          row.map (fun cell => (cell.1, decodeRowCell jsonbOn cell.1 cell.2)))),
        closeConn { Conn.mk db db with current := cur },
        [Ev.execCall])
  | .err e cur =>
    (.error e, closeConn { Conn.mk db db with current := cur }, [Ev.execCall])

/-! ## The read_query and write_query guards of handle_call_tool -/

/-- Model of the read_query tool branch of handle_call_tool (server.py):
a statement not starting (trimmed, upper-cased) with SELECT is rejected
with a ValueError before the executor — and hence the engine — is ever
reached. -/
def handle_read_query (jsonbOn : Bool) (exec : EngineExec) (query : String)
    (db : DB) : Except String (List Row) × DB × List Ev :=
  if ¬ startsWithChars (pyStripUpper query) "SELECT".data then
    (.error "Only SELECT queries are allowed for read_query", db, [])
  else
    execute_query jsonbOn exec query none db

/-- Model of the write_query tool branch of handle_call_tool (server.py):
a statement starting (trimmed, upper-cased) with SELECT is rejected with a
ValueError before the executor — and hence the engine — is ever
reached. -/
def handle_write_query (jsonbOn : Bool) (exec : EngineExec) (query : String)
    (db : DB) : Except String (List Row) × DB × List Ev :=
  if startsWithChars (pyStripUpper query) "SELECT".data then
    (.error "SELECT queries are not allowed for write_query", db, [])
  else
    execute_query jsonbOn exec query none db

/-! ## The insight ledger -/

/-- Model of Python str.join with a newline separator. -/
def joinNl : List String → String
  | [] => ""
  | [x] => x
  | x :: y :: xs => x ++ "\n" ++ joinNl (y :: xs)

/-- Model of _synthesize_memo from server.py. -/
def synthesize_memo (insights : List String) : String :=
  if insights.isEmpty then "No business insights have been discovered yet."
  else if 1 < insights.length then
    "📊 Business Intelligence Memo 📊\n\n" ++ "Key Insights Discovered:\n\n"
      ++ joinNl (insights.map (fun insight => "- " ++ insight))
      ++ "\nSummary:\n" ++ "Analysis has revealed " ++ toString insights.length
      ++ " key business insights that suggest opportunities for strategic optimization and growth."
  else
    "📊 Business Intelligence Memo 📊\n\n" ++ "Key Insights Discovered:\n\n"
      ++ joinNl (insights.map (fun insight => "- " ++ insight))

/-! ## Prefix lemmas for the statement classification -/

theorem startsWithChars_head {s : List Char} {p : Char} {ps : List Char}
    (h : startsWithChars s (p :: ps) = true) :
    ∃ t, s = p :: t ∧ startsWithChars t ps = true := by
  cases s with
  | nil => simp [startsWithChars] at h
  | cons c cs =>
    simp [startsWithChars] at h
    exact ⟨cs, by rw [h.1], h.2⟩

theorem startsWithChars_take {p : List Char} {n : Nat} (h : p.length ≤ n) (s : List Char) :
    startsWithChars (s.take n) p = startsWithChars s p := by
  induction p generalizing s n with
  | nil => cases s <;> cases n <;> rfl
  | cons q qs ih =>
    cases s with
    | nil => cases n <;> rfl
    | cons c cs =>
      cases n with
      | zero => simp at h
      | succ m =>
        have hm : qs.length ≤ m := by simpa using h
        simp only [List.take_succ_cons, startsWithChars]
        rw [ih hm cs]

theorem startsWith_disjoint {s : List Char} {c c' : Char} {ps ps' : List Char}
    (h : startsWithChars s (c :: ps) = true) (hne : ¬ c = c') :
    startsWithChars s (c' :: ps') = false := by
  obtain ⟨t, ht, -⟩ := startsWithChars_head h
  rw [ht]
  simp [startsWithChars, hne]

theorem not_select_of_write_start {s : List Char}
    (h : startsWithChars s "INSERT".data = true ∨ startsWithChars s "UPDATE".data = true
      ∨ startsWithChars s "DELETE".data = true) :
    startsWithChars s "SELECT".data = false := by
  rw [show "SELECT".data = 'S' :: "ELECT".data from rfl]
  rcases h with h | h | h
  · rw [show "INSERT".data = 'I' :: "NSERT".data from rfl] at h
    exact startsWith_disjoint h (by decide)
  · rw [show "UPDATE".data = 'U' :: "PDATE".data from rfl] at h
    exact startsWith_disjoint h (by decide)
  · rw [show "DELETE".data = 'D' :: "ELETE".data from rfl] at h
    exact startsWith_disjoint h (by decide)

theorem select_of_read_class {q : String} (h : statementClass q = .read) :
    startsWithChars (pyStripUpper q) "SELECT".data = true := by
  by_cases hS : startsWithChars (pyStripUpper q) "SELECT".data = true
  · exact hS
  · exfalso
    simp only [statementClass, if_neg hS] at h
    split_ifs at h <;> exact absurd h (by decide)

theorem not_select_of_unread_class {q : String} (h : ¬ statementClass q = .read) :
    startsWithChars (pyStripUpper q) "SELECT".data = false := by
  by_cases hS : startsWithChars (pyStripUpper q) "SELECT".data = true
  · exact absurd (by simp [statementClass, hS]) h
  · simpa using hS

theorem jsonbRewrite_of_not_write {jsonbOn : Bool} {query : String}
    {params : Option (List (String × PyVal))}
    (h : isWriteStmt query = false) :
    jsonbRewrite jsonbOn query params = query := by
  simp only [isWriteStmt, Bool.or_eq_false_iff] at h
  simp [jsonbRewrite, h.1.1.1.1.1, h.1.1.1.1.2]

/-- On a statement without a write-class keyword the enhanced executor
takes the read path: no rewrite, no commit, rows processed per cell. -/
theorem execute_query_read_shape (jsonbOn : Bool) (exec : EngineExec)
    (query : String) (params : Option (List (String × PyVal))) (db : DB)
    (hq : isWriteStmt query = false) :
    execute_query jsonbOn exec query params db =
      match exec query params db with
      | .ok _cur rows _n =>
        (.ok (rows.map (fun row => row.map (fun cell =>
            (cell.1, decodeRowCell jsonbOn cell.1 cell.2)))), db, [Ev.execCall])
      | .err e _cur => (.error e, db, [Ev.execCall]) := by
  have hrw : jsonbRewrite jsonbOn query params = query := jsonbRewrite_of_not_write hq
  unfold execute_query
  rw [hrw]
  dsimp only
  cases exec query params db with
  | ok cur rows n => simp [hq, closeConn]
  | err e cur => simp [closeConn]

/-! ## The claims about transactions and routing -/

/-- C1: a Write-class statement (trimmed text beginning with INSERT, UPDATE
or DELETE) whose execution raises an engine error is rolled back: the
database state after the call equals the state before it, the trace shows
begin, execute, rollback, and the original error is propagated. -/
theorem write_error_rolls_back (exec : EngineExec) (db : DB) (query : String)
    (params : Option (List (String × PyVal))) (e : String) (cur : DB)
    (hw : startsWithChars (pyStripUpper query) "INSERT".data = true
        ∨ startsWithChars (pyStripUpper query) "UPDATE".data = true
        ∨ startsWithChars (pyStripUpper query) "DELETE".data = true)
    (hexec : exec query params db = .err e cur) :
    safe_execute_query exec db query params
      = (.error e, db, [Ev.beginTx, Ev.execCall, Ev.rollbackTx]) := by
  have hread : is_read_query query = false := not_select_of_write_start hw
  unfold safe_execute_query
  rw [hread]
  dsimp only [Bool.false_eq_true, if_false, beginTxn]
  rw [hexec]
  simp [closeConn, rollbackTxn]

theorem write_error_rolls_back_witness :
    safe_execute_query (fun _ _ d => ExecOutcome.err "disk I/O error" d)
        [("t", [[("id", Value.int 1)]])] "insert into t values (2)" none
      = (.error "disk I/O error", [("t", [[("id", Value.int 1)]])],
          [Ev.beginTx, Ev.execCall, Ev.rollbackTx]) :=
  write_error_rolls_back _ _ _ _ _ _ (Or.inl (by decide)) rfl

/-- C5: the statement class is a function of the first six characters of the
trimmed, case-normalized statement text (a prefix test, not a parse); every
Write- or SchemaChange-class statement opens an explicit transaction before
the engine executes it, and every Read-class statement executes directly
with no explicit transaction. -/
theorem classification_and_transactions :
    (∀ q1 q2 : String, (pyStripUpper q1).take 6 = (pyStripUpper q2).take 6 →
        statementClass q1 = statementClass q2) ∧
    (∀ (exec : EngineExec) (db : DB) (q : String) (params : Option (List (String × PyVal))),
        (statementClass q = .write ∨ statementClass q = .schemaChange) →
        (safe_execute_query exec db q params).2.2.take 2 = [Ev.beginTx, Ev.execCall]) ∧
    (∀ (exec : EngineExec) (db : DB) (q : String) (params : Option (List (String × PyVal))),
        statementClass q = .read →
        (safe_execute_query exec db q params).2.2 = [Ev.execCall]) := by
  refine ⟨?_, ?_, ?_⟩
  · intro q1 q2 h
    have key : ∀ q : String, statementClass q =
        (if startsWithChars ((pyStripUpper q).take 6) "SELECT".data then .read
         else if startsWithChars ((pyStripUpper q).take 6) "INSERT".data
             || startsWithChars ((pyStripUpper q).take 6) "UPDATE".data
             || startsWithChars ((pyStripUpper q).take 6) "DELETE".data then .write
         else if startsWithChars ((pyStripUpper q).take 6) "CREATE".data
             || startsWithChars ((pyStripUpper q).take 6) "DROP".data
             || startsWithChars ((pyStripUpper q).take 6) "ALTER".data then .schemaChange
         else .other) := by
      intro q
      rw [@startsWithChars_take "SELECT".data 6 (by decide) (pyStripUpper q),
          @startsWithChars_take "INSERT".data 6 (by decide) (pyStripUpper q),
          @startsWithChars_take "UPDATE".data 6 (by decide) (pyStripUpper q),
          @startsWithChars_take "DELETE".data 6 (by decide) (pyStripUpper q),
          @startsWithChars_take "CREATE".data 6 (by decide) (pyStripUpper q),
          @startsWithChars_take "DROP".data 6 (by decide) (pyStripUpper q),
          @startsWithChars_take "ALTER".data 6 (by decide) (pyStripUpper q)]
      rfl
    rw [key q1, key q2, h]
  · intro exec db q params h
    have hread : is_read_query q = false :=
      not_select_of_unread_class (by rcases h with h | h <;> simp [h])
    unfold safe_execute_query
    rw [hread]
    dsimp only [Bool.false_eq_true, if_false]
    cases exec q params (beginTxn (Conn.mk db db)).current <;> rfl
  · intro exec db q params h
    have hread : is_read_query q = true := select_of_read_class h
    unfold safe_execute_query
    rw [hread]
    dsimp only [if_true]
    cases exec q params (Conn.mk db db).current <;> rfl

theorem classification_and_transactions_witness :
    statementClass "  insert into t values (1)" = .write ∧
    (safe_execute_query (fun _ _ d => ExecOutcome.ok d [] 1)
        [] "  insert into t values (1)" none).2.2.take 2 = [Ev.beginTx, Ev.execCall] ∧
    statementClass "SELECT 1" = .read ∧
    (safe_execute_query (fun _ _ d => ExecOutcome.ok d [] 0) [] "SELECT 1" none).2.2
      = [Ev.execCall] :=
  ⟨by decide,
    classification_and_transactions.2.1 _ _ _ _ (Or.inl (by decide)),
    by decide,
    classification_and_transactions.2.2 _ _ _ _ (by decide)⟩

/-- C7: a Write-class statement submitted through read_query, or a
Read-class statement submitted through write_query, is rejected with the
class-mismatch error before any engine call (empty event trace) and the
database is untouched. -/
theorem wrong_path_fails_fast :
    (∀ (jsonbOn : Bool) (exec : EngineExec) (q : String) (db : DB),
        statementClass q = .write →
        handle_read_query jsonbOn exec q db
          = (.error "Only SELECT queries are allowed for read_query", db, [])) ∧
    (∀ (jsonbOn : Bool) (exec : EngineExec) (q : String) (db : DB),
        statementClass q = .read →
        handle_write_query jsonbOn exec q db
          = (.error "SELECT queries are not allowed for write_query", db, [])) := by
  constructor
  · intro jsonbOn exec q db h
    have hS : startsWithChars (pyStripUpper q) "SELECT".data = false :=
      not_select_of_unread_class (by simp [h])
    unfold handle_read_query
    rw [hS]
    rfl
  · intro jsonbOn exec q db h
    have hS : startsWithChars (pyStripUpper q) "SELECT".data = true :=
      select_of_read_class h
    unfold handle_write_query
    rw [hS]
    rfl

theorem wrong_path_fails_fast_witness :
    statementClass "DELETE FROM t" = .write ∧
    handle_read_query true (fun _ _ d => ExecOutcome.ok d [] 0) "DELETE FROM t" []
      = (.error "Only SELECT queries are allowed for read_query", [], []) ∧
    statementClass " select 1" = .read ∧
    handle_write_query true (fun _ _ d => ExecOutcome.ok d [] 0) " select 1" []
      = (.error "SELECT queries are not allowed for write_query", [], []) :=
  ⟨by decide, wrong_path_fails_fast.1 _ _ _ _ (by decide),
    by decide, wrong_path_fails_fast.2 _ _ _ _ (by decide)⟩

/-- C10: every statement whose trimmed, upper-cased text does not begin
with INSERT, UPDATE, DELETE, CREATE, DROP or ALTER (e.g. PRAGMA, ANALYZE)
goes through _execute_query's read path: the trace holds a single engine
call and no commit, and on success the result is the list of fetched row
mappings (per-cell processed), never an affected-row count mapping. -/
theorem non_write_statements_read_path (jsonbOn : Bool) (exec : EngineExec)
    (query : String) (params : Option (List (String × PyVal))) (db : DB)
    (hq : isWriteStmt query = false) :
    (execute_query jsonbOn exec query params db).2.2 = [Ev.execCall] ∧
    (∀ cur rows n, exec query params db = .ok cur rows n →
      (execute_query jsonbOn exec query params db).1
        = .ok (rows.map (fun row => row.map (fun cell =>
            (cell.1, decodeRowCell jsonbOn cell.1 cell.2))))) := by
  rw [execute_query_read_shape jsonbOn exec query params db hq]
  constructor
  · cases exec query params db <;> rfl
  · intro cur rows n hx
    rw [hx]

theorem non_write_statements_read_path_witness :
    isWriteStmt "PRAGMA table_info(t)" = false ∧
    (execute_query true (fun _ _ d => ExecOutcome.ok d [[("cid", Value.int 0)]] 0)
        "PRAGMA table_info(t)" none []).2.2 = [Ev.execCall] ∧
    (execute_query true (fun _ _ d => ExecOutcome.ok d [[("cid", Value.int 0)]] 0)
        "PRAGMA table_info(t)" none []).1 = .ok [[("cid", Value.int 0)]] := by
  refine ⟨by decide,
    (non_write_statements_read_path true _ "PRAGMA table_info(t)" none [] (by decide)).1, ?_⟩
  have h := (non_write_statements_read_path true
      (fun _ _ d => ExecOutcome.ok d [[("cid", Value.int 0)]] 0)
      "PRAGMA table_info(t)" none [] (by decide)).2 [] [[("cid", Value.int 0)]] 0 rfl
  rw [h]
  rfl

/-- C6: on the read path any cell of a column literally named metadata whose
value is a blob is decoded back to parsed JSON in the returned row (for a
blob the encode path produced, the original value); when decoding the blob
fails the raw blob is kept unchanged, and in every case the read as a whole
still succeeds with the processed rows. -/
theorem metadata_blob_graceful_decode (exec : EngineExec) (query : String)
    (params : Option (List (String × PyVal))) (db cur : DB) (rows : List Row) (n : Int)
    (hq : isWriteStmt query = false)
    (hexec : exec query params db = .ok cur rows n) :
    (execute_query true exec query params db).1
        = .ok (rows.map (fun row => row.map (fun cell =>
            (cell.1, decodeRowCell true cell.1 cell.2)))) ∧
    (∀ k v, ¬ k = "metadata" → decodeRowCell true k v = v) ∧
    (∀ v : Json, sizeOk v = true → Wf v = true →
        decodeRowCell true "metadata" (Value.blob (jsonbEncodeEl v)) = Value.jsonv v) ∧
    (∀ bs, jsonbDecodeTop bs = none →
        decodeRowCell true "metadata" (Value.blob bs) = Value.blob bs) := by
  refine ⟨?_, ?_, ?_, ?_⟩
  · rw [execute_query_read_shape true exec query params db hq, hexec]
  · intro k v hk
    cases v <;> simp [decodeRowCell, hk]
  · intro v hs hwf
    have hconv : (convert_from_jsonb (jsonbEncodeEl v)).1 = some (renderJson v) := by
      simp [convert_from_jsonb, jsonbDecodeTop_encode hs]
    have hne : ¬ (renderJson v).data.isEmpty = true := by
      obtain ⟨c, cs', hr, -, -, -⟩ := renderChars_head hwf
      show ¬ (renderChars v).isEmpty = true
      rw [hr]
      simp
    have hload : json_loads (PyVal.str (renderJson v)) = .ok v := by
      simp [json_loads, parseJson_render hwf]
    simp [decodeRowCell, decodeCell, hconv, hne, hload]
  · intro bs hnone
    simp [decodeRowCell, decodeCell, convert_from_jsonb, hnone]

theorem metadata_blob_graceful_decode_witness :
    isWriteStmt "SELECT * FROM memory_journal" = false ∧
    sizeOk (Json.obj [("a", Json.num "1")]) = true ∧
    Wf (Json.obj [("a", Json.num "1")]) = true ∧
    jsonbDecodeTop [255] = none ∧
    decodeRowCell true "metadata"
        (Value.blob (jsonbEncodeEl (Json.obj [("a", Json.num "1")])))
      = Value.jsonv (Json.obj [("a", Json.num "1")]) ∧
    decodeRowCell true "metadata" (Value.blob [255]) = Value.blob [255] := by
  have h := metadata_blob_graceful_decode (fun _ _ d => ExecOutcome.ok d [] 0)
      "SELECT * FROM memory_journal" none [] [] [] 0 (by decide) rfl
  exact ⟨by decide, by decide, by decide, rfl,
    h.2.2.1 _ (by decide) (by decide), h.2.2.2 [255] rfl⟩

/-! ## The claims about the codec and validate_json -/

/-- C2: for every syntactically valid JSON text (of engine-representable
size), encoding it to the binary form and decoding that binary value yields
a JSON text whose parsed value equals the parsed value of the input. -/
theorem jsonb_codec_roundtrip (j : String) (v : Json)
    (hp : parseJson j = some v) (hs : sizeOk v = true) :
    ∃ b t, (convert_to_jsonb j).1 = some b ∧ (convert_from_jsonb b).1 = some t ∧
      parseJson t = parseJson j := by
  refine ⟨jsonbEncodeEl v, renderJson v, ?_, ?_, ?_⟩
  · simp [convert_to_jsonb, hp, hs]
  · simp [convert_from_jsonb, jsonbDecodeTop_encode hs]
  · rw [hp, parseJson_render (parseJson_wf hp)]

theorem jsonb_codec_roundtrip_witness :
    parseJson "[1,true,null,\"x\",-0.5e3]"
      = some (Json.arr [Json.num "1", Json.bool true, Json.null, Json.str "x",
          Json.num "-0.5e3"]) ∧
    sizeOk (Json.arr [Json.num "1", Json.bool true, Json.null, Json.str "x",
        Json.num "-0.5e3"]) = true ∧
    ∃ b t, (convert_to_jsonb "[1,true,null,\"x\",-0.5e3]").1 = some b ∧
      (convert_from_jsonb b).1 = some t ∧
      parseJson t = parseJson "[1,true,null,\"x\",-0.5e3]" :=
  ⟨rfl, by decide, jsonb_codec_roundtrip _ _ rfl (by decide)⟩

/-- C3: refutes the claim's second half.  An UPDATE targeting
memory_journal with a metadata parameter that is present but NOT valid
JSON — validate_json reports false on it — does not proceed unmodified:
the code discards the boolean result of validate_json, so the placeholder
is rewritten to route through jsonb() exactly as for valid JSON. -/
theorem metadata_rewrite_ignores_validity :
    lookupParam (some [("metadata", PyVal.str "not valid json")]) "metadata"
      = some (PyVal.str "not valid json") ∧
    validate_json (PyVal.str "not valid json") = .ok false ∧
    jsonbRewrite true "UPDATE memory_journal SET metadata = ? WHERE id = 1"
        (some [("metadata", PyVal.str "not valid json")])
      = "UPDATE memory_journal SET metadata = jsonb(?) WHERE id = 1" :=
  ⟨rfl, rfl, by decide⟩

/-- C4: refutes the claim for the code.  On malformed JSON text Encode
does not fail fast before touching the engine and does not surface an
error: the engine call SELECT jsonb(?) is always issued (there is no
pre-flight syntax check), and the except clause converts the engine's
failure into a None return — a null success value. -/
theorem encode_failfast_counterexample :
    parseJson "x" = none ∧
    (convert_to_jsonb "x").2 = ["SELECT jsonb(?)"] ∧
    (convert_to_jsonb "x").1 = none :=
  ⟨rfl, rfl, rfl⟩

/-- C4 (amended): on malformed JSON text Encode issues its single engine
call, the engine raises, and Encode returns None — no exception escapes
and no value is produced. -/
theorem encode_malformed_returns_none (j : String) (h : parseJson j = none) :
    convert_to_jsonb j = (none, ["SELECT jsonb(?)"]) := by
  unfold convert_to_jsonb
  rw [h]

theorem encode_malformed_returns_none_witness :
    parseJson "x" = none ∧ convert_to_jsonb "x" = (none, ["SELECT jsonb(?)"]) :=
  ⟨rfl, encode_malformed_returns_none "x" rfl⟩

/-- Boolean success of json.loads: the value validate_json reports. -/
def loadsOk (v : PyVal) : Bool :=
  match json_loads v with
  | .ok _ => true
  | .error _ => false

/-- C9: refutes totality as claimed.  validate_json is not total over the
Python value universe: for a bytes input whose content cannot be decoded
under json.detect_encoding, json.loads raises UnicodeDecodeError, which the
except clause (json.JSONDecodeError, TypeError) does not catch, so the
exception escapes to the caller. -/
theorem validate_json_total_counterexample :
    validate_json (PyVal.bytes [255]) = .error PyExc.unicodeDecodeError :=
  rfl

/-- C9 (amended): validate_json returns a boolean — true exactly when
json.loads succeeds on the input — and raises no exception, for every
input except a bytes value whose content fails to decode; in particular it
never raises on str inputs or on non-str non-bytes inputs such as None or
numbers (those return False via the caught TypeError). -/
theorem validate_json_no_raise (v : PyVal)
    (h : ∀ bs, v = PyVal.bytes bs → (pyDecodeBytes bs).isSome = true) :
    validate_json v = .ok (loadsOk v) := by
  cases v with
  | pyNone => rfl
  | pyInt n => rfl
  | obj => rfl
  | str s =>
    simp only [validate_json, json_loads, loadsOk]
    cases parseJson s <;> rfl
  | bytes bs =>
    obtain ⟨cs, hcs⟩ := Option.isSome_iff_exists.mp (by simpa using h bs rfl)
    simp only [validate_json, json_loads, loadsOk]
    rw [hcs]
    dsimp only
    cases parseJson (String.mk cs) <;> rfl

theorem validate_json_no_raise_witness :
    (∀ bs, PyVal.str "[1, 2]" = PyVal.bytes bs → (pyDecodeBytes bs).isSome = true) ∧
    validate_json (PyVal.str "[1, 2]") = .ok (loadsOk (PyVal.str "[1, 2]")) ∧
    validate_json PyVal.pyNone = .ok (loadsOk PyVal.pyNone) ∧
    loadsOk PyVal.pyNone = false :=
  ⟨fun bs hb => PyVal.noConfusion hb,
    validate_json_no_raise _ (fun bs hb => PyVal.noConfusion hb),
    validate_json_no_raise _ (fun bs hb => PyVal.noConfusion hb),
    rfl⟩

/-! ## Line structure of the rendered memo -/

/-- Splits a character list at newline characters: the line structure of
the rendered memo text. -/
def splitNl : List Char → List (List Char)
  | [] => [[]]
  | c :: cs =>
    if c = '\n' then [] :: splitNl cs
    else
      match splitNl cs with
      | [] => [[c]]
      | l :: ls => (c :: l) :: ls

theorem splitNl_no_nl {a : List Char} (h : ('\n' : Char) ∉ a) : splitNl a = [a] := by
  induction a with
  | nil => rfl
  | cons c cs ih =>
    have hc : ¬ c = '\n' := by
      intro hc
      exact h (hc ▸ List.mem_cons_self c cs)
    have hcs : ('\n' : Char) ∉ cs := fun hm => h (List.mem_cons_of_mem c hm)
    simp [splitNl, hc, ih hcs]

theorem splitNl_nl (r : List Char) : splitNl ('\n' :: r) = [] :: splitNl r := by
  simp [splitNl]

theorem splitNl_append {a : List Char} (h : ('\n' : Char) ∉ a) (b : List Char) :
    splitNl (a ++ '\n' :: b) = a :: splitNl b := by
  induction a with
  | nil => simp [splitNl]
  | cons c cs ih =>
    have hc : ¬ c = '\n' := by
      intro hc
      exact h (hc ▸ List.mem_cons_self c cs)
    have hcs : ('\n' : Char) ∉ cs := fun hm => h (List.mem_cons_of_mem c hm)
    simp [splitNl, hc, ih hcs]

theorem bullet_data (x : String) : ("- " ++ x).data = '-' :: ' ' :: x.data := by
  rw [String.data_append]
  rfl

theorem bullet_no_nl {x : String} (h : ('\n' : Char) ∉ x.data) :
    ('\n' : Char) ∉ ("- " ++ x).data := by
  rw [bullet_data]
  intro hm
  rcases List.mem_cons.mp hm with h1 | hm2
  · exact absurd h1 (by decide)
  · rcases List.mem_cons.mp hm2 with h2 | hm3
    · exact absurd h2 (by decide)
    · exact h hm3

theorem joinNl_cons_data (x y : String) (ys : List String) :
    (joinNl ((x :: y :: ys).map (fun i => "- " ++ i))).data
      = ("- " ++ x).data ++ '\n' :: (joinNl ((y :: ys).map (fun i => "- " ++ i))).data := by
  have hn : "\n".data = ['\n'] := rfl
  simp only [List.map_cons, joinNl, String.data_append]
  simp [hn, List.append_assoc]

theorem splitNl_bullets_suffix (l : List String) :
    (∀ s ∈ l, ('\n' : Char) ∉ s.data) → ¬ l = [] → ∀ b : List Char,
    splitNl ((joinNl (l.map (fun i => "- " ++ i))).data ++ '\n' :: b)
      = l.map (fun i => '-' :: ' ' :: i.data) ++ splitNl b := by
  induction l with
  | nil =>
    intro _ hl _
    exact absurd rfl hl
  | cons x xs ih =>
    intro hnl _ b
    have hx : ('\n' : Char) ∉ x.data := hnl x (List.mem_cons_self x xs)
    cases xs with
    | nil =>
      show splitNl (("- " ++ x).data ++ '\n' :: b) = _
      rw [splitNl_append (bullet_no_nl hx)]
      simp [bullet_data]
    | cons y ys =>
      have hxs : ∀ s ∈ y :: ys, ('\n' : Char) ∉ s.data :=
        fun s hs => hnl s (List.mem_cons_of_mem x hs)
      rw [joinNl_cons_data]
      rw [List.append_assoc]
      simp only [List.cons_append]
      rw [splitNl_append (bullet_no_nl hx)]
      rw [ih hxs (List.cons_ne_nil y ys) b]
      simp [bullet_data]

theorem splitNl_bullets (l : List String) :
    (∀ s ∈ l, ('\n' : Char) ∉ s.data) → ¬ l = [] →
    splitNl (joinNl (l.map (fun i => "- " ++ i))).data
      = l.map (fun i => '-' :: ' ' :: i.data) := by
  induction l with
  | nil =>
    intro _ hl
    exact absurd rfl hl
  | cons x xs ih =>
    intro hnl _
    have hx : ('\n' : Char) ∉ x.data := hnl x (List.mem_cons_self x xs)
    cases xs with
    | nil =>
      show splitNl ("- " ++ x).data = _
      rw [splitNl_no_nl (bullet_no_nl hx)]
      simp [bullet_data]
    | cons y ys =>
      have hxs : ∀ s ∈ y :: ys, ('\n' : Char) ∉ s.data :=
        fun s hs => hnl s (List.mem_cons_of_mem x hs)
      rw [joinNl_cons_data]
      rw [splitNl_append (bullet_no_nl hx)]
      rw [ih hxs (List.cons_ne_nil y ys)]
      simp [bullet_data]

/-- The decimal digits of a number contain no newline. -/
theorem digitChar_ne_nl (m : Nat) : ¬ Nat.digitChar m = '\n' := by
  by_cases h : m < 16
  · interval_cases m <;> decide
  · unfold Nat.digitChar
    iterate 16 rw [if_neg (by omega)]
    decide

theorem toDigitsCore_ne_nl (fuel : Nat) : ∀ (n : Nat) (ds : List Char),
    ('\n' : Char) ∉ ds → ('\n' : Char) ∉ Nat.toDigitsCore 10 fuel n ds := by
  induction fuel with
  | zero =>
    intro n ds hds
    simpa [Nat.toDigitsCore] using hds
  | succ f ih =>
    intro n ds hds
    simp only [Nat.toDigitsCore]
    have hcons : ('\n' : Char) ∉ Nat.digitChar (n % 10) :: ds := by
      intro hm
      rcases List.mem_cons.mp hm with h1 | h2
      · exact digitChar_ne_nl _ h1.symm
      · exact hds h2
    split_ifs
    · exact hcons
    · exact ih _ _ hcons

theorem nat_repr_ne_nl (n : Nat) : ('\n' : Char) ∉ (Nat.repr n).data :=
  toDigitsCore_ne_nl _ _ _ (by simp)

/-- C8: memo rendering is a function of the insight sequence: an empty
sequence renders the fixed placeholder sentence; a non-empty sequence
renders as lines: the header, a blank line, the discoveries heading, a
blank line, then exactly one bulleted line per insight in order, then —
exactly when there is more than one insight — a Summary: line followed by
a line reporting the insight count. -/
theorem memo_render (insights : List String)
    (hnl : ∀ s ∈ insights, ('\n' : Char) ∉ s.data) :
    (insights = [] →
      synthesize_memo insights = "No business insights have been discovered yet.") ∧
    (¬ insights = [] →
      splitNl (synthesize_memo insights).data
        = ["📊 Business Intelligence Memo 📊".data, [], "Key Insights Discovered:".data, []]
            ++ insights.map (fun i => '-' :: ' ' :: i.data)
            ++ (if 1 < insights.length then
                  ["Summary:".data,
                   ("Analysis has revealed " ++ toString insights.length
                     ++ " key business insights that suggest opportunities for strategic optimization and growth.").data]
                else [])) := by
  constructor
  · intro h
    subst h
    rfl
  · intro hne
    have hempty : insights.isEmpty = false := by
      cases insights with
      | nil => exact absurd rfl hne
      | cons a l => rfl
    have hA : "📊 Business Intelligence Memo 📊\n\n".data
        = "📊 Business Intelligence Memo 📊".data ++ '\n' :: '\n' :: [] := rfl
    have hB : "Key Insights Discovered:\n\n".data
        = "Key Insights Discovered:".data ++ '\n' :: '\n' :: [] := rfl
    have hD : "\nSummary:\n".data = '\n' :: ("Summary:".data ++ ['\n']) := rfl
    have hA2 : ('\n' : Char) ∉ "📊 Business Intelligence Memo 📊".data := by decide
    have hB2 : ('\n' : Char) ∉ "Key Insights Discovered:".data := by decide
    have hS2 : ('\n' : Char) ∉ "Summary:".data := by decide
    have hnotempty : ¬ insights.isEmpty = true := by
      simp [hempty]
    by_cases hlen : 1 < insights.length
    · rw [if_pos hlen]
      unfold synthesize_memo
      rw [if_neg hnotempty, if_pos hlen]
      have hnum : ('\n' : Char) ∉ (toString insights.length).data :=
        nat_repr_ne_nl insights.length
      have hfinal : ('\n' : Char) ∉ "Analysis has revealed ".data
          ++ ((toString insights.length).data
            ++ " key business insights that suggest opportunities for strategic optimization and growth.".data) := by
        intro hm
        rcases List.mem_append.mp hm with h1 | hm2
        · exact absurd h1 (by decide)
        · rcases List.mem_append.mp hm2 with h2 | h3
          · exact hnum h2
          · exact absurd h3 (by decide)
      have hform : ("📊 Business Intelligence Memo 📊\n\n" ++ "Key Insights Discovered:\n\n"
            ++ joinNl (insights.map (fun insight => "- " ++ insight))
            ++ "\nSummary:\n" ++ "Analysis has revealed " ++ toString insights.length
            ++ " key business insights that suggest opportunities for strategic optimization and growth.").data
          = "📊 Business Intelligence Memo 📊".data ++ '\n' :: '\n' ::
            ("Key Insights Discovered:".data ++ '\n' :: '\n' ::
              ((joinNl (insights.map (fun insight => "- " ++ insight))).data ++ '\n' ::
                ("Summary:".data ++ '\n' ::
                  ("Analysis has revealed ".data ++ ((toString insights.length).data
                    ++ " key business insights that suggest opportunities for strategic optimization and growth.".data))))) := by
        simp [String.data_append, List.append_assoc]
      rw [hform]
      rw [splitNl_append hA2, splitNl_nl, splitNl_append hB2, splitNl_nl,
        splitNl_bullets_suffix insights hnl hne, splitNl_append hS2, splitNl_no_nl hfinal]
      simp [String.data_append, List.append_assoc]
    · rw [if_neg hlen]
      unfold synthesize_memo
      rw [if_neg hnotempty, if_neg hlen]
      have hform : ("📊 Business Intelligence Memo 📊\n\n" ++ "Key Insights Discovered:\n\n"
            ++ joinNl (insights.map (fun insight => "- " ++ insight))).data
          = "📊 Business Intelligence Memo 📊".data ++ '\n' :: '\n' ::
            ("Key Insights Discovered:".data ++ '\n' :: '\n' ::
              (joinNl (insights.map (fun insight => "- " ++ insight))).data) := by
        simp [String.data_append, List.append_assoc]
      rw [hform]
      rw [splitNl_append hA2, splitNl_nl, splitNl_append hB2, splitNl_nl,
        splitNl_bullets insights hnl hne]
      simp

theorem memo_render_witness :
    (∀ s ∈ (["Revenue grew 12% in Q2", "Churn dropped"] : List String),
        ('\n' : Char) ∉ s.data) ∧
    synthesize_memo [] = "No business insights have been discovered yet." ∧
    splitNl (synthesize_memo ["Revenue grew 12% in Q2", "Churn dropped"]).data
      = ["📊 Business Intelligence Memo 📊".data, [], "Key Insights Discovered:".data, []]
          ++ (["Revenue grew 12% in Q2", "Churn dropped"] : List String).map
              (fun i => '-' :: ' ' :: i.data)
          ++ (if 1 < (["Revenue grew 12% in Q2", "Churn dropped"] : List String).length then
                ["Summary:".data,
                 ("Analysis has revealed "
                   ++ toString (["Revenue grew 12% in Q2", "Churn dropped"] : List String).length
                   ++ " key business insights that suggest opportunities for strategic optimization and growth.").data]
              else []) :=
  ⟨by decide,
    (memo_render [] (by decide)).1 rfl,
    (memo_render ["Revenue grew 12% in Q2", "Churn dropped"] (by decide)).2 (by decide)⟩

end SqliteMcp



